import Mathlib

/-
Verification of the statistical text-modeling toolkit in src/project3/mytext_0.py:
counting probability distributions, n-gram models, Viterbi word segmentation and
the two cipher-breaking engines.  Python dictionaries are embedded as association
lists (iteration order = insertion order; every property proved below is
independent of the iteration order), Python floats as rationals, and fallible
Python code as values of `Except PyError`.
-/

set_option maxHeartbeats 1000000
set_option maxRecDepth 40000
set_option linter.unusedSectionVars false

/-- Runtime faults of the Python code that the embedding makes explicit. -/
inductive PyError where
  | zeroDivisionError
  | valueError
  | nameError
  | typeError
deriving DecidableEq

/-- First value bound to a key in an association list (Python dict lookup). -/
def assocFind {α β : Type} [DecidableEq α] (l : List (α × β)) (k : α) : Option β :=
  match l with
  | [] => none
  | p :: rest => if p.1 = k then some p.2 else assocFind rest k

/-- Dict lookup with a default for a missing key (`DefaultDict` read). -/
def assocFindD {α β : Type} [DecidableEq α] (l : List (α × β)) (k : α) (d : β) : β :=
  (assocFind l k).getD d

/-- Dict store: overwrite the value bound to a present key in place, append a
missing key at the end (Python dict insertion order). -/
def assocStore {α β : Type} [DecidableEq α] (l : List (α × β)) (k : α) (v : β) :
    List (α × β) :=
  match l with
  | [] => [(k, v)]
  | p :: rest => if p.1 = k then (k, v) :: rest else p :: assocStore rest k v

/-- A Python `for` loop threading an accumulator, where the body can raise:
fold that stops at the first fault. -/
def exceptFoldList {γ δ : Type} (f : δ → γ → Except PyError δ) :
    δ → List γ → Except PyError δ
  | a, [] => Except.ok a
  | a, x :: xs =>
    match f a x with
    | Except.error e => Except.error e
    | Except.ok b => exceptFoldList f b xs

/-- A Python list comprehension whose element expression can raise: map that
stops at the first fault. -/
def exceptMapList {γ δ : Type} (f : γ → Except PyError δ) :
    List γ → Except PyError (List δ)
  | [] => Except.ok []
  | x :: xs =>
    match f x with
    | Except.error e => Except.error e
    | Except.ok y =>
      match exceptMapList f xs with
      | Except.error e => Except.error e
      | Except.ok ys => Except.ok (y :: ys)

/-!  ### CountingProbDist (src/project3/mytext_0.py lines 11-65)

`__init__(self, observations=[], default=0)` sets up, via `update(self, ...)`,
the fields `dictionary` (a `DefaultDict(default)`), `needs_recompute`, `table`
and `n_obs`, then `add`s each observation.  `n_obs` is a Python int until
`_recompute` stores `float(n_obs)`; every value it takes is integral, so it is
embedded as `ℕ`.  -/

structure CountingProbDist (α : Type) where
  dictionary : List (α × ℕ)
  dfault : ℕ
  n_obs : ℕ
  needs_recompute : Bool
  table : List (ℕ × α)
deriving DecidableEq

namespace CountingProbDist

variable {α : Type} [DecidableEq α]

/-- The empty distribution produced by `__init__` before any observation is
added: empty dictionary, `n_obs=0`, `needs_recompute=False`, empty table. -/
def empty (α : Type) (dfault : ℕ) : CountingProbDist α :=
  { dictionary := [], dfault := dfault, n_obs := 0, needs_recompute := false,
    table := [] }

/-- `add(self, o)`: `self.dictionary[o] += 1` reads the `DefaultDict` (which
yields `default` for a missing key) and stores the increment back, then
`self.n_obs += 1` and `self.needs_recompute = True`. -/
def add (m : CountingProbDist α) (o : α) : CountingProbDist α :=
  { m with
    dictionary := assocStore m.dictionary o (assocFindD m.dictionary o m.dfault + 1)
    n_obs := m.n_obs + 1
    needs_recompute := true }

/-- The `for o in observations: self.add(o)` loop of `__init__`. -/
def addAll (m : CountingProbDist α) (os : List α) : CountingProbDist α :=
  os.foldl add m

/-- `__init__(observations, default)`. -/
def init (observations : List α) (dfault : ℕ) : CountingProbDist α :=
  addAll (empty α dfault) observations

/-- The cumulative table built by `_recompute`: running totals of the counts in
dictionary iteration order, paired with the observations. -/
def cumTable (l : List (α × ℕ)) (acc : ℕ) : List (ℕ × α) :=
  match l with
  | [] => []
  | p :: rest => (acc + p.2, p.1) :: cumTable rest (acc + p.2)

/-- `_recompute(self)`: recompute `n_obs` as the sum of all counts and rebuild
the cumulative `table`, clearing `needs_recompute`. -/
def recompute (m : CountingProbDist α) : CountingProbDist α :=
  { m with
    n_obs := (m.dictionary.map Prod.snd).sum
    table := cumTable m.dictionary 0
    needs_recompute := false }

/-- The `if self.needs_recompute: self._recompute()` preamble of `sample`,
`__getitem__` and `__len__`. -/
def recomputeIfNeeded (m : CountingProbDist α) : CountingProbDist α :=
  if m.needs_recompute then recompute m else m

/-- The value of `n_obs` seen by any of the reading methods after their
recompute preamble. -/
def total (m : CountingProbDist α) : ℕ :=
  (recomputeIfNeeded m).n_obs

/-- `__getitem__(self, item)` with its `DefaultDict` side effect: after the
recompute preamble, `self.dictionary[item]` yields the stored count (inserting
`default` for a missing key), and the division by `n_obs` raises
`ZeroDivisionError` when `n_obs` is zero.  Returns the result together with the
mutated distribution. -/
def getitemState (m : CountingProbDist α) (o : α) :
    Except PyError ℚ × CountingProbDist α :=
  let m1 := recomputeIfNeeded m
  let c := assocFindD m1.dictionary o m1.dfault
  let m2 := if (assocFind m1.dictionary o).isSome then m1
            else { m1 with dictionary := assocStore m1.dictionary o m1.dfault }
  (if m1.n_obs = 0 then Except.error PyError.zeroDivisionError
   else Except.ok ((c : ℚ) / (m1.n_obs : ℚ)), m2)

/-- The value returned by `__getitem__` (`P[o]`).  During a phase that performs
no `add`, this value is independent of the preceding lookups: the recompute
preamble is idempotent and the `DefaultDict` insertions never change a value a
later lookup returns (`readValue_getitemState` below), so the read-only callers
(`viterbi_segment`, the decoders' scoring) are embedded with `readValue` against
the distribution at the start of the phase. -/
def readValue (m : CountingProbDist α) (o : α) : Except PyError ℚ :=
  (getitemState m o).1

/-- The rational a successful `P[o]` returns, and `0` where Python raises. -/
def readValueQ (m : CountingProbDist α) (o : α) : ℚ :=
  match readValue m o with
  | Except.ok q => q
  | Except.error _ => 0

/-- `__len__(self)`: recompute if needed, then return `n_obs`. -/
def lenValue (m : CountingProbDist α) : ℕ :=
  total m

/-- The table lookup of `sample`: `bisect.bisect_left(self.table, (1 + r,))`
finds the first entry whose running total is at least the target (tuple
comparison of `(target,)` against `(count, o)` orders exactly by
`target ≤ count`), and `self.table[i]` then reads it; an index past the end of
the table (Python `IndexError`) is the `none` case, shown unreachable when the
target is at most the last running total. -/
def sampleFromTable (table : List (ℕ × α)) (target : ℕ) : Option α :=
  match table with
  | [] => none
  | p :: rest => if target ≤ p.1 then some p.2 else sampleFromTable rest target

/-- `sample(self)`: after the recompute preamble, return `None` when
`n_obs == 0`, else pick the observation at cumulative position
`1 + random.randrange(n_obs)`.  The random draw is passed in as `r : ℕ`;
`r % n_obs` ranges over exactly the values `randrange(n_obs)` can produce. -/
def sample (m : CountingProbDist α) (r : ℕ) : Option α :=
  if (recomputeIfNeeded m).n_obs = 0 then none
  else sampleFromTable (recomputeIfNeeded m).table
    (1 + r % (recomputeIfNeeded m).n_obs)

/-- Sum of the counts stored in a dictionary. -/
def sumCounts (l : List (α × ℕ)) : ℕ :=
  (l.map Prod.snd).sum

/-- The sum of `P[o]` over the distinct observed `o` (the dictionary keys). -/
def probSum (m : CountingProbDist α) : ℚ :=
  (m.dictionary.map (fun p => readValueQ m p.1)).sum

end CountingProbDist

/-!  ### NgramTextModel (src/project3/mytext_0.py lines 78-119)

Tokens are Python strings (`String`), n-grams and the `(n-1)`-token contexts are
tuples of tokens (`List String`).  `cond_prob` is `DefaultDict(CountingProbDist())`
from the repository's `utils` module, which is not under src/; per spec §4.3 a
missing context key yields a fresh empty conditional distribution, created on
first use. -/

structure NgramTextModel where
  n : ℕ
  base : CountingProbDist (List String)
  cond_prob : List (List String × CountingProbDist String)
deriving DecidableEq

namespace NgramTextModel

/-- The conditional distribution for a context: the stored one, or the fresh
empty `CountingProbDist()` a missing key defaults to. -/
def condAt (m : NgramTextModel) (key : List String) : CountingProbDist String :=
  assocFindD m.cond_prob key (CountingProbDist.empty String 0)

/-- `add(self, ngram)`: count the tuple in the joint distribution and its last
token in the conditional distribution keyed by the first n-1 tokens.  The
n-grams fed by `add_sequence` are nonempty, so `ngram[-1]` never faults. -/
def add (m : NgramTextModel) (ngram : List String) : NgramTextModel :=
  { m with
    base := m.base.add ngram
    cond_prob := assocStore m.cond_prob ngram.dropLast
      ((condAt m ngram.dropLast).add (ngram.getLastD (""))) }

/-- `add_sequence(self, words)`: prepend n-1 empty-string sentinels, then add
the window `words[i:i+n]` for `i in range(len(words)-n)` — one window short of
the end of the padded list, so the final n-1 trailing windows are never added
(`range` of a negative length, like natural subtraction, is empty). -/
def add_sequence (m : NgramTextModel) (ws : List String) : NgramTextModel :=
  let padded := List.replicate (m.n - 1) ("") ++ ws
  (List.range (padded.length - m.n)).foldl
    (fun acc i => acc.add ((padded.drop i).take m.n)) m

/-- `__init__(self, n, observation_sequence=[])`. -/
def make (n : ℕ) (ws : List String) : NgramTextModel :=
  add_sequence { n := n, base := CountingProbDist.empty (List String) 0,
                 cond_prob := [] } ws

/-- The count stored for token `tok` in the conditional distribution keyed by
`key`. -/
def condCount (m : NgramTextModel) (key : List String) (tok : String) : ℕ :=
  assocFindD (condAt m key).dictionary tok 0

/-- The while loop of `samples(self, nwords)`: sample the next token from the
conditional distribution of the rolling context; a truthy token is appended and
shifted into the context, otherwise ("Cannot continue, so restart") the context
resets to all sentinels.  The Python loop has no bound; `fuel` counts loop
iterations and `none` means the bound was hit, so non-termination is the
statement that every fuel returns `none`.  `rs` supplies the random draw of the
`k`-th `sample()` call. -/
def samplesLoop (m : NgramTextModel) (rs : ℕ → ℕ) (nwords : ℕ) :
    ℕ → ℕ → List String → List String → Option (List String)
  | 0, _, output, _ => if nwords ≤ output.length then some output else none
  | fuel + 1, k, output, ctx =>
    if nwords ≤ output.length then some output
    else
      match (condAt m ctx).sample (rs k) with
      | some w =>
        if w = "" then
          samplesLoop m rs nwords fuel (k + 1) output (List.replicate (m.n - 1) (""))
        else
          samplesLoop m rs nwords fuel (k + 1) (output ++ [w]) (ctx.drop 1 ++ [w])
      | none =>
        samplesLoop m rs nwords fuel (k + 1) output (List.replicate (m.n - 1) (""))

/-- `samples(self, nwords)`: run the loop from the all-sentinel context and the
empty output, then join the tokens with single spaces. -/
def samplesFuel (m : NgramTextModel) (rs : ℕ → ℕ) (nwords fuel : ℕ) :
    Option String :=
  (samplesLoop m rs nwords fuel 0 [] (List.replicate (m.n - 1) (""))).map
    (fun out => String.intercalate (" ") out)

/-- `samples` terminates on the given inputs and produces the token list `out`:
some iteration bound completes the loop with `out`. -/
def samplesProduces (m : NgramTextModel) (rs : ℕ → ℕ) (nwords : ℕ)
    (out : List String) : Prop :=
  ∃ fuel, samplesLoop m rs nwords fuel 0 [] (List.replicate (m.n - 1) ("")) = some out

end NgramTextModel

/-!  ### words, canonicalize, bigrams (lines 228-241, 277-284) -/

/-- A character matched by the `[a-z0-9]+` word regexp. -/
def isWordChar (c : Char) : Bool :=
  (('a' ≤ c) && (c ≤ 'z')) || (('0' ≤ c) && (c ≤ '9'))

/-- Scanner for `re.findall('[a-z0-9]+', text)`: `acc` holds the current run,
reversed. -/
def wordsAux : List Char → List Char → List (List Char)
  | [], acc => if acc.isEmpty then [] else [acc.reverse]
  | c :: rest, acc =>
    if isWordChar c then wordsAux rest (c :: acc)
    else if acc.isEmpty then wordsAux rest []
    else acc.reverse :: wordsAux rest []

/-- `words(text)`: the maximal `[a-z0-9]+` runs of `text.lower()`. -/
def pywords (text : List Char) : List (List Char) :=
  wordsAux (text.map Char.toLower) []

/-- `canonicalize(text)`: `' '.join(words(text))`. -/
def canonicalize (text : List Char) : List Char :=
  List.intercalate [' '] (pywords text)

/-- `bigrams(text)`: the length-2 slices `text[i:i+2]` for
`i in range(len(text) - 1)`. -/
def bigrams {γ : Type} (l : List γ) : List (List γ) :=
  (List.range (l.length - 1)).map (fun i => (l.drop i).take 2)

/-!  ### Cipher codec (lines 253-284) -/

def alphabet : List Char := ("abcdefghijklmnopqrstuvwxyz").toList

/-- `string.maketrans(alphabet + alphabet.upper(), code + code.upper())`: the
positional character substitution table built by `encode`. -/
def transTable (code : List Char) : List (Char × Char) :=
  List.zip (alphabet ++ alphabet.map Char.toUpper) (code ++ code.map Char.toUpper)

/-- `str.translate(trans)` on one character: substitute a character that occurs
in the table, leave every other character unchanged. -/
def translateChar (tbl : List (Char × Char)) (c : Char) : Char :=
  (assocFind tbl c).getD c

/-- `encode(plaintext, code)`. -/
def encode (plaintext : List Char) (code : List Char) : List Char :=
  plaintext.map (translateChar (transTable code))

/-- `shift_encode(plaintext, n)`: encode with `alphabet[n:] + alphabet[:n]`. -/
def shift_encode (plaintext : List Char) (n : ℕ) : List Char :=
  encode plaintext (alphabet.drop n ++ alphabet.take n)

/-- `rot13(plaintext)`. -/
def rot13 (plaintext : List Char) : List Char :=
  shift_encode plaintext 13

/-- `all_shifts(text)`: the 26 shift encodings of `text`. -/
def all_shifts (text : List Char) : List (List Char) :=
  (List.range alphabet.length).map (fun n => shift_encode text n)

/-!  ### ShiftDecoder (lines 288-309) -/

structure ShiftDecoder where
  P2 : CountingProbDist (List Char)
deriving DecidableEq

/-- `ShiftDecoder.__init__(self, training_text)`: canonicalize the training
text and count its bigrams with add-one smoothing (`default=1`). -/
def ShiftDecoder.ofTraining (training : List Char) : ShiftDecoder :=
  ⟨CountingProbDist.init (bigrams (canonicalize training)) 1⟩

/-- `score(self, plaintext)`: the product of `self.P2[bi]` over the bigrams of
the candidate (a lookup on an empty distribution raises
`ZeroDivisionError`). -/
def ShiftDecoder.score (d : ShiftDecoder) (plaintext : List Char) :
    Except PyError ℚ :=
  exceptFoldList
    (fun s bi =>
      match d.P2.readValue bi with
      | Except.error e => Except.error e
      | Except.ok p => Except.ok (s * p)) (1 : ℚ) (bigrams plaintext)

/-- Modelled from the spec: `argmax` comes from the repository's `utils`
module, which is not under src/.  Spec §4.6: "return the candidate with maximum
score. Ties broken by evaluation order — the first candidate (lowest shift
index) achieving the maximum wins."  A fault while scoring a candidate
propagates; an empty candidate list cannot occur (`all_shifts` always has 26
entries) and maps to `none`. -/
def argmaxSpec {γ : Type} (l : List γ) (f : γ → Except PyError ℚ) :
    Except PyError (Option γ) :=
  match l with
  | [] => Except.ok none
  | x :: xs =>
    match f x with
    | Except.error e => Except.error e
    | Except.ok fx =>
      match exceptFoldList
          (fun acc y =>
            match f y with
            | Except.error e => Except.error e
            | Except.ok fy => Except.ok (if acc.2 < fy then (y, fy) else acc))
          (x, fx) xs with
      | Except.error e => Except.error e
      | Except.ok r => Except.ok (some r.1)

/-- `decode(self, ciphertext)`: `argmax(all_shifts(ciphertext), self.score)`. -/
def ShiftDecoder.decode (d : ShiftDecoder) (ciphertext : List Char) :
    Except PyError (Option (List Char)) :=
  argmaxSpec (all_shifts ciphertext) d.score

/-!  ### PermutationDecoder (lines 313-362)

`PermutationDecoder.__init__` would build `P2 = NgramTextModel(2, training_text)`
with a `str` argument, whose `add_sequence` evaluates `[''] * 1 + training_text`
— a list-plus-str concatenation that raises `TypeError` — so the constructor as
written cannot complete; `score` is embedded as a function of the three trained
models it reads.  The n-gram dictionary of `P2` is keyed by two-character
tuples while `score` looks up two-character strings; `P2Key` keeps Python's
string/tuple distinction so the two never compare equal. -/

inductive P2Key where
  | tup : List Char → P2Key
  | str : List Char → P2Key
deriving DecidableEq

/-- Modelled from the spec: `score` calls a global `decode(ciphertext, code)`
that no code in src/ defines; spec §4.7 describes it: "decode the ciphertext
under the (possibly partial) assignment, leaving unassigned cipher letters as
placeholders".  Each assigned cipher letter is translated, every other
character is left in place. -/
def decodeUnderCode (ciphertext : List Char) (code : List (Char × Char)) :
    List Char :=
  ciphertext.map (fun c => (assocFind code c).getD c)

/-- `math.log` applied to a probability: it raises `ValueError` (math domain
error) unless the argument is positive.  The log values are only ever used in
`exp(Σ log pᵢ)`, which equals `∏ pᵢ` for positive `pᵢ`, so the embedding keeps
the probability itself. -/
def logTerm (e : Except PyError ℚ) : Except PyError ℚ :=
  match e with
  | Except.error err => Except.error err
  | Except.ok p => if 0 < p then Except.ok p else Except.error PyError.valueError

/-- `PermutationDecoder.score(self, ciphertext, code)`: decode under the
partial assignment, then `exp` of the summed logs of the word probabilities,
the letter probabilities and the letter-bigram probabilities — the product of
all those probabilities when every one is positive, a `ValueError` from
`math.log` as soon as one of them, in evaluation order, is zero. -/
def permScore (Pwords : CountingProbDist (List Char)) (P1 : CountingProbDist Char)
    (P2base : CountingProbDist P2Key) (ciphertext : List Char)
    (code : List (Char × Char)) : Except PyError ℚ :=
  match exceptMapList (fun w => logTerm (Pwords.readValue w))
      (pywords (decodeUnderCode ciphertext code)) with
  | Except.error e => Except.error e
  | Except.ok pws =>
    match exceptMapList (fun c => logTerm (P1.readValue c))
        (decodeUnderCode ciphertext code) with
    | Except.error e => Except.error e
    | Except.ok pls =>
      match exceptMapList (fun b => logTerm (P2base.readValue (P2Key.str b)))
          (bigrams (decodeUnderCode ciphertext code)) with
      | Except.error e => Except.error e
      | Except.ok pbs =>
        Except.ok ((pws ++ pls ++ pbs).foldl (fun a q => a * q) 1)

/-- `PermutationDecoderProblem.successors(self, state)`: evaluate
`max([(self.decoder.P1[c], c) for c in alphabet if c not in state])` — each
`P1[c]` lookup can raise `ZeroDivisionError`, and `max` of an empty sequence
raises `ValueError` — then the expression `extend(state, plainchar, cipherchar)`
raises `NameError`: nothing in the file binds `cipherchar` (the line carries
the author's `#????` marker).  Were the name bound, the method still has no
return statement and would return `None` rather than the one-element list. -/
def successors (P1 : CountingProbDist Char) (state : List (Char × Char)) :
    Except PyError (Option (List (List (Char × Char)))) :=
  let unassigned := alphabet.filter (fun c => (assocFind state c).isNone)
  match exceptMapList (fun c => P1.readValue c) unassigned with
  | Except.error e => Except.error e
  | Except.ok _ =>
    if unassigned.isEmpty then Except.error PyError.valueError
    else Except.error PyError.nameError

/-- `PermutationDecoderProblem.goal_test(self, state)`: all 26 letters
assigned. -/
def goal_test (state : List (Char × Char)) : Bool :=
  26 ≤ state.length

/-!  ### viterbi_segment (lines 124-145) -/

/-- The slice `text[j:i]`. -/
def sliceText (text : List Char) (j i : ℕ) : List Char :=
  (text.drop j).take (i - j)

/-- One execution of the inner-loop body for end position `i` and start `j`,
with the probability `p = P[text[j:i]]` already looked up: overwrite `best[i]`
and `words[i]` when `P[w] * best[i - len(w)] >= best[i]`. -/
def viterbiStepP (p : ℚ) (text : List Char) (i j : ℕ)
    (st : List ℚ × List (List Char)) : List ℚ × List (List Char) :=
  let w := sliceText text j i
  if st.1.getD i 0 ≤ p * st.1.getD (i - w.length) 0 then
    (st.1.set i (p * st.1.getD (i - w.length) 0), st.2.set i w)
  else st

/-- The inner-loop body including the `P[w]` lookup (which raises
`ZeroDivisionError` on an empty model). -/
def viterbiStep (P : CountingProbDist (List Char)) (text : List Char) (i : ℕ)
    (st : List ℚ × List (List Char)) (j : ℕ) :
    Except PyError (List ℚ × List (List Char)) :=
  match P.readValue (sliceText text j i) with
  | Except.error e => Except.error e
  | Except.ok p => Except.ok (viterbiStepP p text i j st)

/-- The inner-loop body with the lookup replaced by the value it returns — what
`viterbiStep` computes whenever the model is nonempty. -/
def viterbiStepPure (P : CountingProbDist (List Char)) (text : List Char)
    (i : ℕ) (st : List ℚ × List (List Char)) (j : ℕ) :
    List ℚ × List (List Char) :=
  viterbiStepP (P.readValueQ (sliceText text j i)) text i j st

/-- The inner loop `for j in range(0, i)`. -/
def viterbiInner (P : CountingProbDist (List Char)) (text : List Char) (i : ℕ)
    (st : List ℚ × List (List Char)) :
    Except PyError (List ℚ × List (List Char)) :=
  exceptFoldList (viterbiStep P text i) st (List.range i)

/-- The double loop of `viterbi_segment`, from
`best = [1.0] + [0.0]*n` and `words = [''] + list(text)`. -/
def viterbiDP (text : List Char) (P : CountingProbDist (List Char)) :
    Except PyError (List ℚ × List (List Char)) :=
  exceptFoldList (fun st i => viterbiInner P text i st)
    ((1 : ℚ) :: List.replicate text.length 0, [] :: text.map (fun c => [c]))
    (List.range (text.length + 1))

/-- The recovery loop `while i > 0: sequence[0:0] = [words[i]]; i -= len(words[i])`.
`i` decreases by the recorded word's length each turn; every recorded word is
nonempty (initial entries are single characters and overwrites store slices
`text[j:i]` with `j < i`), so `fuel = i` iterations always suffice. -/
def recoverWords (wordsv : List (List Char)) : ℕ → ℕ → List (List Char)
  | 0, _ => []
  | fuel + 1, i =>
    if i = 0 then []
    else recoverWords wordsv fuel (i - (wordsv.getD i []).length) ++ [wordsv.getD i []]

/-- `viterbi_segment(text, P)`: run the dynamic program, recover the word
sequence from position `len(words) - 1`, and return it with `best[-1]`. -/
def viterbi_segment (text : List Char) (P : CountingProbDist (List Char)) :
    Except PyError (List (List Char) × ℚ) :=
  match viterbiDP text P with
  | Except.error e => Except.error e
  | Except.ok st =>
    Except.ok (recoverWords st.2 st.2.length (st.2.length - 1), st.1.getLastD 0)

/-- The candidate probability the inner loop computes for start `j` at end `i`:
`P[text[j:i]] * best[i - len(text[j:i])]`. -/
def candVal (P : CountingProbDist (List Char)) (text : List Char)
    (best : List ℚ) (i j : ℕ) : ℚ :=
  P.readValueQ (sliceText text j i) *
    best.getD (i - (sliceText text j i).length) 0

/-- Running maximum with last-tie-wins over candidate indices `0..k-1` — the
shape of the Viterbi inner loop: the recorded value and the recording index. -/
def lastArgmaxAux (f : ℕ → ℚ) : ℕ → ℚ × Option ℕ
  | 0 => (0, none)
  | k + 1 =>
    let r := lastArgmaxAux f k
    if r.1 ≤ f k then (f k, some k) else r

/-- The bigram-product score of a `ShiftDecoder` candidate as a rational — the
value `ShiftDecoder.score` returns whenever the training distribution is
nonempty. -/
def scoreVal (d : ShiftDecoder) (plaintext : List Char) : ℚ :=
  (bigrams plaintext).foldl (fun s bi => s * d.P2.readValueQ bi) 1

/-- Running maximum with first-tie-wins (replace only on strictly greater) —
the accumulator loop inside `argmaxSpec`, on pure scores. -/
def firstMaxAux {γ : Type} (g : γ → ℚ) : γ × ℚ → List γ → γ × ℚ
  | acc, [] => acc
  | acc, y :: ys => firstMaxAux g (if acc.2 < g y then (y, g y) else acc) ys

/-!  ### Theorems -/

theorem assocFind_mem {α β : Type} [DecidableEq α] {l : List (α × β)} {k : α} {v : β}
    (h : assocFind l k = some v) : (k, v) ∈ l := by
  induction l with
  | nil => simp [assocFind] at h
  | cons p rest ih =>
    obtain ⟨a, b⟩ := p
    by_cases hp : a = k
    · subst hp
      simp only [assocFind, if_pos] at h
      cases h
      exact List.mem_cons_self _ _
    · simp only [assocFind, hp, if_neg, not_false_iff] at h
      exact List.mem_cons_of_mem _ (ih h)

theorem assocFind_of_mem_nodup {α β : Type} [DecidableEq α] {l : List (α × β)}
    {k : α} {v : β} (hnd : (l.map Prod.fst).Nodup) (h : (k, v) ∈ l) :
    assocFind l k = some v := by
  induction l with
  | nil => simp at h
  | cons p rest ih =>
    simp only [List.map_cons, List.nodup_cons] at hnd
    rcases List.mem_cons.mp h with h1 | h1
    · cases h1
      simp [assocFind]
    · have hk : p.1 ≠ k := by
        intro he
        exact hnd.1 (he ▸ (List.mem_map.mpr ⟨(k, v), h1, rfl⟩))
      simp only [assocFind, hk, if_neg, not_false_iff]
      exact ih hnd.2 h1

theorem assocStore_map_fst_of_mem {α β : Type} [DecidableEq α] {l : List (α × β)}
    {k : α} (v : β) (h : k ∈ l.map Prod.fst) :
    (assocStore l k v).map Prod.fst = l.map Prod.fst := by
  induction l with
  | nil => simp at h
  | cons p rest ih =>
    by_cases hp : p.1 = k
    · simp [assocStore, hp]
    · simp only [List.map_cons, List.mem_cons] at h
      rcases h with h1 | h1
      · exact absurd h1.symm hp
      · simp [assocStore, hp, ih h1]

theorem assocStore_map_fst_of_not_mem {α β : Type} [DecidableEq α] {l : List (α × β)}
    {k : α} (v : β) (h : ¬ k ∈ l.map Prod.fst) :
    (assocStore l k v).map Prod.fst = l.map Prod.fst ++ [k] := by
  induction l with
  | nil => simp [assocStore]
  | cons p rest ih =>
    simp only [List.map_cons, List.mem_cons] at h
    push_neg at h
    have hp : p.1 ≠ k := fun he => h.1 he.symm
    simp [assocStore, hp, ih h.2]

theorem assocFind_store_self {α β : Type} [DecidableEq α] (l : List (α × β))
    (k : α) (v : β) : assocFind (assocStore l k v) k = some v := by
  induction l with
  | nil => simp [assocStore, assocFind]
  | cons p rest ih =>
    by_cases hp : p.1 = k
    · simp [assocStore, hp, assocFind]
    · simp [assocStore, hp, assocFind, ih]

theorem assocFind_store_ne {α β : Type} [DecidableEq α] (l : List (α × β))
    (k k' : α) (v : β) (h : k ≠ k') :
    assocFind (assocStore l k v) k' = assocFind l k' := by
  induction l with
  | nil => simp [assocStore, assocFind, h]
  | cons p rest ih =>
    obtain ⟨a, b⟩ := p
    by_cases hp : a = k
    · subst hp
      simp only [assocStore, if_pos]
      simp [assocFind, h]
    · simp only [assocStore, hp, if_neg, not_false_iff]
      by_cases hp' : a = k'
      · simp [assocFind, hp']
      · simp [assocFind, hp', ih]

namespace CountingProbDist

variable {α : Type} [DecidableEq α]

theorem recomputeIfNeeded_of_false {m : CountingProbDist α}
    (h : m.needs_recompute = false) : recomputeIfNeeded m = m := by
  simp [recomputeIfNeeded, h]

theorem needs_recompute_recomputeIfNeeded (m : CountingProbDist α) :
    (recomputeIfNeeded m).needs_recompute = false := by
  unfold recomputeIfNeeded recompute
  by_cases h : m.needs_recompute <;> simp [h]

theorem recomputeIfNeeded_idem (m : CountingProbDist α) :
    recomputeIfNeeded (recomputeIfNeeded m) = recomputeIfNeeded m :=
  recomputeIfNeeded_of_false (needs_recompute_recomputeIfNeeded m)

theorem readValue_eq (m : CountingProbDist α) (o : α) :
    readValue m o = if total m = 0 then Except.error PyError.zeroDivisionError
      else Except.ok
        (((assocFindD (recomputeIfNeeded m).dictionary o (recomputeIfNeeded m).dfault : ℕ) : ℚ)
          / ((total m : ℕ) : ℚ)) := by
  unfold readValue getitemState total
  by_cases h : (recomputeIfNeeded m).n_obs = 0 <;> simp [h]

/-- Reading `P[o]` leaves every later read unchanged: the state returned by
`getitemState` gives the same `readValue` as the original distribution.  This
justifies embedding read-only phases with `readValue` throughout. -/
theorem readValue_getitemState (m : CountingProbDist α) (o o' : α) :
    readValue (getitemState m o).2 o' = readValue m o' := by
  have hM : (recomputeIfNeeded m).needs_recompute = false :=
    needs_recompute_recomputeIfNeeded m
  by_cases hmem : (assocFind (recomputeIfNeeded m).dictionary o).isSome
  · show readValue (if _ then _ else _) o' = _
    rw [if_pos hmem]
    unfold readValue getitemState
    rw [recomputeIfNeeded_idem]
  · show readValue (if _ then _ else _) o' = _
    rw [if_neg hmem]
    have hnone : assocFind (recomputeIfNeeded m).dictionary o = none := by
      cases h : assocFind (recomputeIfNeeded m).dictionary o
      · rfl
      · rw [h] at hmem; simp at hmem
    rw [readValue_eq, readValue_eq]
    have h2 : recomputeIfNeeded
        { recomputeIfNeeded m with
          dictionary := assocStore (recomputeIfNeeded m).dictionary o
            (recomputeIfNeeded m).dfault } =
        { recomputeIfNeeded m with
          dictionary := assocStore (recomputeIfNeeded m).dictionary o
            (recomputeIfNeeded m).dfault } :=
      recomputeIfNeeded_of_false hM
    have htot : total
        { recomputeIfNeeded m with
          dictionary := assocStore (recomputeIfNeeded m).dictionary o
            (recomputeIfNeeded m).dfault } = total m := by
      unfold total
      rw [h2]
    rw [htot, h2]
    by_cases ho : o = o'
    · subst ho
      simp [assocFindD, assocFind_store_self, hnone]
    · simp [assocFindD, assocFind_store_ne _ _ _ _ ho]

end CountingProbDist

/-!  ### Claim C1 -/

/-- C1 (corrected): on a `CountingProbDist` whose total count is 0, the
probability lookup `P[o]` raises `ZeroDivisionError` for every observation —
it does not return 0.0; whenever the total is nonzero it returns
`count / total` without fault. -/
theorem claim_C1 {α : Type} [DecidableEq α] (m : CountingProbDist α) (o : α) :
    (CountingProbDist.total m = 0 →
      CountingProbDist.readValue m o = Except.error PyError.zeroDivisionError) ∧
    (CountingProbDist.total m ≠ 0 →
      CountingProbDist.readValue m o = Except.ok
        (((assocFindD (CountingProbDist.recomputeIfNeeded m).dictionary o
            (CountingProbDist.recomputeIfNeeded m).dfault : ℕ) : ℚ) /
          ((CountingProbDist.total m : ℕ) : ℚ))) := by
  constructor
  · intro h
    rw [CountingProbDist.readValue_eq, if_pos h]
  · intro h
    rw [CountingProbDist.readValue_eq, if_neg h]

/-- Witness for C1: the freshly constructed empty distribution has total 0 and
its lookup raises. -/
theorem claim_C1_witness :
    CountingProbDist.total (CountingProbDist.init ([] : List Char) 0) = 0 ∧
    CountingProbDist.readValue (CountingProbDist.init ([] : List Char) 0) 'a' =
      Except.error PyError.zeroDivisionError :=
  ⟨rfl, (claim_C1 (CountingProbDist.init ([] : List Char) 0) 'a').1 rfl⟩

/-- C1 counterexample: querying the empty distribution raises
`ZeroDivisionError`; in particular it does not return the claimed 0.0. -/
theorem claim_C1_counterexample :
    CountingProbDist.readValue (CountingProbDist.init ([] : List Char) 0) 'a' =
      Except.error PyError.zeroDivisionError ∧
    CountingProbDist.readValue (CountingProbDist.init ([] : List Char) 0) 'a' ≠
      Except.ok (0 : ℚ) := by
  have he : CountingProbDist.readValue (CountingProbDist.init ([] : List Char) 0) 'a' =
      Except.error PyError.zeroDivisionError := rfl
  refine ⟨he, ?_⟩
  intro h
  rw [he] at h
  exact Except.noConfusion h

/-!  ### Claim C3 -/

/-- C3 (corrected): after `NgramTextModel(2)` is fed `["a","b","a","b"]`, the
conditional distribution keyed by `("",)` holds `"a"` with count 1 and the one
keyed by `("b",)` holds `"a"` with count 1, but the one keyed by `("a",)` holds
`"b"` with count 1 — not 2 — because the window loop stops one window short of
the end of the padded sequence and so never adds its final `("a","b")`. -/
theorem claim_C3 :
    NgramTextModel.condCount
      (NgramTextModel.make 2 [("a"), ("b"), ("a"), ("b")]) [("")] ("a") = 1 ∧
    NgramTextModel.condCount
      (NgramTextModel.make 2 [("a"), ("b"), ("a"), ("b")]) [("a")] ("b") = 1 ∧
    NgramTextModel.condCount
      (NgramTextModel.make 2 [("a"), ("b"), ("a"), ("b")]) [("b")] ("a") = 1 :=
  ⟨rfl, rfl, rfl⟩

/-- C3 counterexample: the count of `"b"` under the context `("a",)` is 1, not
the claimed 2. -/
theorem claim_C3_counterexample :
    ¬ NgramTextModel.condCount
      (NgramTextModel.make 2 [("a"), ("b"), ("a"), ("b")]) [("a")] ("b") = 2 := by
  decide

/-!  ### Claim C5 -/

/-- C5 (code_bug): on the empty partial state, with a letter model trained on
`"a"`, `PermutationDecoderProblem.successors` raises `NameError` — the name
`cipherchar` is never bound — instead of yielding exactly one successor state;
the goal test is not yet reached there.  The permutation search therefore
cannot complete at all, let alone in 26 steps. -/
theorem claim_C5 :
    successors (CountingProbDist.init (['a']) 0) [] =
      Except.error PyError.nameError ∧
    goal_test [] = false :=
  ⟨rfl, rfl⟩

/-!  ### Claim C10 -/

/-- C10 (confirmed): for every unigram model `P`, `viterbi_segment("", P)`
returns the empty word sequence and probability exactly 1.0. -/
theorem claim_C10 (P : CountingProbDist (List Char)) :
    viterbi_segment [] P = Except.ok ([], 1) :=
  rfl

/-!  ### Claim C2: counterexample -/

/-- C2 counterexample: with the word model trained on "ab" (so the decoded
candidate "c" is a word of probability 0), `PermutationDecoder.score` raises
`ValueError` from `log(0.0)` — it does not return 0.0, nor any value ≥ 0. -/
theorem claim_C2_counterexample :
    permScore (CountingProbDist.init [("ab").toList] 0)
      (CountingProbDist.init ([] : List Char) 0)
      (CountingProbDist.init ([] : List P2Key) 0) (("c").toList) [] =
      Except.error PyError.valueError := by
  norm_num +decide [permScore, decodeUnderCode, pywords, wordsAux, isWordChar,
    exceptMapList, logTerm, CountingProbDist.readValue_eq, CountingProbDist.init,
    CountingProbDist.addAll, CountingProbDist.add, CountingProbDist.empty,
    CountingProbDist.total, CountingProbDist.recomputeIfNeeded,
    CountingProbDist.recompute, assocStore, assocFind, assocFindD]

/-!  ### Claim C4: counterexample -/

/-- C4 counterexample: on the text "ab" with word counts ab:1, a:2, b:3
(total 6), the candidates at end position 2 tie — the two-letter word "ab" and
the one-letter word "b" both score 1/6 against the incoming row
`best = [1, 1/3, 0]` — yet the dynamic program records `"b"`, the shortest
tying word, not the longest word "ab" the claim names. -/
theorem claim_C4_counterexample :
    viterbiDP (("ab").toList)
        (CountingProbDist.init [("ab").toList, ("a").toList, ("a").toList,
          ("b").toList, ("b").toList, ("b").toList] 0) =
      Except.ok ([1, 1/3, 1/6], [[], ['a'], ['b']]) ∧
    candVal (CountingProbDist.init [("ab").toList, ("a").toList, ("a").toList,
        ("b").toList, ("b").toList, ("b").toList] 0)
      (("ab").toList) [1, 1/3, 0] 2 0 = 1/6 ∧
    candVal (CountingProbDist.init [("ab").toList, ("a").toList, ("a").toList,
        ("b").toList, ("b").toList, ("b").toList] 0)
      (("ab").toList) [1, 1/3, 0] 2 1 = 1/6 ∧
    sliceText (("ab").toList) 0 2 = ("ab").toList ∧
    (['b'] : List Char) ≠ ("ab").toList := by
  refine ⟨?_, ?_, ?_, rfl, by decide⟩
  · norm_num +decide [viterbiDP, viterbiInner, viterbiStep, viterbiStepP,
      sliceText, exceptFoldList, List.range_succ, List.replicate_succ, List.set,
      CountingProbDist.readValue_eq, CountingProbDist.init,
      CountingProbDist.addAll, CountingProbDist.add, CountingProbDist.empty,
      CountingProbDist.total, CountingProbDist.recomputeIfNeeded,
      CountingProbDist.recompute, assocStore, assocFind, assocFindD]
  · norm_num +decide [candVal, sliceText, CountingProbDist.readValueQ,
      CountingProbDist.readValue_eq, CountingProbDist.init,
      CountingProbDist.addAll, CountingProbDist.add, CountingProbDist.empty,
      CountingProbDist.total, CountingProbDist.recomputeIfNeeded,
      CountingProbDist.recompute, assocStore, assocFind, assocFindD]
  · norm_num +decide [candVal, sliceText, CountingProbDist.readValueQ,
      CountingProbDist.readValue_eq, CountingProbDist.init,
      CountingProbDist.addAll, CountingProbDist.add, CountingProbDist.empty,
      CountingProbDist.total, CountingProbDist.recomputeIfNeeded,
      CountingProbDist.recompute, assocStore, assocFind, assocFindD]

/-!  ### Claim C9: counterexample -/

/-- C9 counterexample: for the empty observation sequence (N = 0) the sum of
the probabilities over the distinct observed observations is 0, not 1. -/
theorem claim_C9_counterexample :
    CountingProbDist.probSum (CountingProbDist.init ([] : List Char) 0) ≠ 1 := by
  rw [show CountingProbDist.probSum (CountingProbDist.init ([] : List Char) 0) =
    (0 : ℚ) from rfl]
  norm_num

/-!  ### Claim C6: counterexample -/

/-- On the freshly constructed bigram model every conditional distribution is
empty, so every `sample()` yields `None`, the context resets, and the `samples`
loop makes no progress: no iteration bound completes it. -/
theorem samplesLoop_fresh_model_none (rs : ℕ → ℕ) :
    ∀ fuel k ctx,
      NgramTextModel.samplesLoop (NgramTextModel.make 2 []) rs 1 fuel k [] ctx
        = none := by
  intro fuel
  induction fuel with
  | zero =>
    intro k ctx
    rfl
  | succ n ih =>
    intro k ctx
    have hs : (NgramTextModel.condAt (NgramTextModel.make 2 []) ctx).sample (rs k)
        = none := rfl
    show (if (1 : ℕ) ≤ ([] : List String).length then some [] else _) = none
    rw [if_neg (by norm_num)]
    rw [hs]
    exact ih (k + 1) (List.replicate (2 - 1) (""))

/-- C6 counterexample: on the empty bigram model, `samples(1)` never
terminates — there is no output it produces. -/
theorem claim_C6_counterexample :
    ¬ ∃ out, NgramTextModel.samplesProduces (NgramTextModel.make 2 [])
      (fun _ => 0) 1 out := by
  rintro ⟨out, fuel, h⟩
  rw [samplesLoop_fresh_model_none] at h
  exact Option.noConfusion h

/-!  ### Claim C9: invariants of add and the amended claim -/

namespace CountingProbDist

variable {α : Type} [DecidableEq α]

theorem recomputeIfNeeded_dictionary (m : CountingProbDist α) :
    (recomputeIfNeeded m).dictionary = m.dictionary := by
  unfold recomputeIfNeeded recompute
  by_cases h : m.needs_recompute <;> simp [h]

theorem recomputeIfNeeded_dfault (m : CountingProbDist α) :
    (recomputeIfNeeded m).dfault = m.dfault := by
  unfold recomputeIfNeeded recompute
  by_cases h : m.needs_recompute <;> simp [h]

theorem add_dfault (m : CountingProbDist α) (o : α) :
    (add m o).dfault = m.dfault := rfl

theorem addAll_dfault (os : List α) (m : CountingProbDist α) :
    (addAll m os).dfault = m.dfault := by
  induction os generalizing m with
  | nil => rfl
  | cons o os ih =>
    show (addAll (add m o) os).dfault = m.dfault
    rw [ih]
    rfl

theorem addAll_n_obs (os : List α) (m : CountingProbDist α) :
    (addAll m os).n_obs = m.n_obs + os.length := by
  induction os generalizing m with
  | nil => rfl
  | cons o os ih =>
    show (addAll (add m o) os).n_obs = m.n_obs + (o :: os).length
    rw [ih]
    show m.n_obs + 1 + os.length = m.n_obs + (os.length + 1)
    omega

theorem sumCounts_store_incr (l : List (α × ℕ)) (k : α) :
    sumCounts (assocStore l k (assocFindD l k 0 + 1)) = sumCounts l + 1 := by
  induction l with
  | nil => simp [assocStore, assocFindD, assocFind, sumCounts]
  | cons p rest ih =>
    by_cases hp : p.1 = k
    · simp only [assocStore, assocFindD, assocFind, hp, if_pos, Option.getD_some]
      simp [sumCounts]
      omega
    · simp only [assocStore, assocFindD, assocFind, hp, if_neg, not_false_iff]
      have ih' := ih
      simp only [assocFindD] at ih'
      simp [sumCounts] at ih' ⊢
      omega

theorem add_sumCounts {m : CountingProbDist α} (h : m.dfault = 0) (o : α) :
    sumCounts (add m o).dictionary = sumCounts m.dictionary + 1 := by
  show sumCounts (assocStore m.dictionary o
    (assocFindD m.dictionary o m.dfault + 1)) = _
  rw [h]
  exact sumCounts_store_incr m.dictionary o

theorem addAll_sumCounts (os : List α) (m : CountingProbDist α)
    (h : m.dfault = 0) :
    sumCounts (addAll m os).dictionary = sumCounts m.dictionary + os.length := by
  induction os generalizing m with
  | nil => rfl
  | cons o os ih =>
    show sumCounts (addAll (add m o) os).dictionary = _
    rw [ih (add m o) (by rw [add_dfault]; exact h), add_sumCounts h]
    show sumCounts m.dictionary + 1 + os.length = _ + (os.length + 1)
    omega

theorem add_keys (m : CountingProbDist α) (o : α) :
    (add m o).dictionary.map Prod.fst =
      if o ∈ m.dictionary.map Prod.fst then m.dictionary.map Prod.fst
      else m.dictionary.map Prod.fst ++ [o] := by
  by_cases h : o ∈ m.dictionary.map Prod.fst
  · rw [if_pos h]
    exact assocStore_map_fst_of_mem _ h
  · rw [if_neg h]
    exact assocStore_map_fst_of_not_mem _ h

theorem addAll_keys_nodup (os : List α) (m : CountingProbDist α)
    (h : (m.dictionary.map Prod.fst).Nodup) :
    ((addAll m os).dictionary.map Prod.fst).Nodup := by
  induction os generalizing m with
  | nil => exact h
  | cons o os ih =>
    refine ih (add m o) ?_
    rw [add_keys]
    by_cases hm : o ∈ m.dictionary.map Prod.fst
    · rwa [if_pos hm]
    · rw [if_neg hm]
      simp only [List.nodup_append, List.nodup_cons, List.not_mem_nil,
        not_false_iff, List.nodup_nil, and_true, true_and]
      constructor
      · exact h
      · intro a ha
        simp only [List.mem_singleton]
        intro he
        exact hm (he ▸ ha)

theorem addAll_keys_mem (os : List α) (m : CountingProbDist α) (o' : α) :
    o' ∈ (addAll m os).dictionary.map Prod.fst ↔
      o' ∈ m.dictionary.map Prod.fst ∨ o' ∈ os := by
  induction os generalizing m with
  | nil => simp [addAll]
  | cons o os ih =>
    show o' ∈ (addAll (add m o) os).dictionary.map Prod.fst ↔ _
    rw [ih, add_keys]
    by_cases hm : o ∈ m.dictionary.map Prod.fst
    · rw [if_pos hm]
      simp only [List.mem_cons]
      constructor
      · rintro (h1 | h1)
        · exact Or.inl h1
        · exact Or.inr (Or.inr h1)
      · rintro (h1 | h1 | h1)
        · exact Or.inl h1
        · exact Or.inl (h1 ▸ hm)
        · exact Or.inr h1
    · rw [if_neg hm]
      simp only [List.mem_append, List.mem_cons, List.not_mem_nil, or_false]
      constructor
      · rintro ((h1 | h1) | h1)
        · exact Or.inl h1
        · exact Or.inr (Or.inl h1)
        · exact Or.inr (Or.inr h1)
      · rintro (h1 | h1 | h1)
        · exact Or.inl (Or.inl h1)
        · exact Or.inl (Or.inr h1)
        · exact Or.inr h1

theorem total_init_zero (os : List α) :
    total (init os 0) = os.length := by
  unfold total recomputeIfNeeded
  by_cases h : (init os 0).needs_recompute
  · rw [if_pos h]
    show sumCounts (init os 0).dictionary = os.length
    unfold init
    rw [addAll_sumCounts os (empty α 0) rfl]
    simp [empty, sumCounts]
  · rw [if_neg h]
    show (addAll (empty α 0) os).n_obs = os.length
    rw [addAll_n_obs]
    simp [empty]

theorem sum_div_counts (l : List (α × ℕ)) (T : ℚ) :
    (l.map (fun p => ((p.2 : ℕ) : ℚ) / T)).sum = ((sumCounts l : ℕ) : ℚ) / T := by
  induction l with
  | nil => simp [sumCounts]
  | cons p rest ih =>
    simp only [List.map_cons, List.sum_cons, ih]
    have hs : sumCounts (p :: rest) = p.2 + sumCounts rest := by
      simp [sumCounts]
    rw [hs]
    push_cast
    rw [add_div]

end CountingProbDist

/-- C9 (corrected): adding any nonempty sequence of N observations to a fresh
unsmoothed (default 0) distribution gives `size() == N` — the total read back
equals the sum of all counts, which is the number of adds — and the sum of the
probabilities over the distinct observed observations is exactly 1; the
distinct observed observations are exactly the members of the sequence.  (For
the empty sequence the probability sum is 0, not 1.) -/
theorem claim_C9 {α : Type} [DecidableEq α] (os : List α) (h : os ≠ []) :
    CountingProbDist.lenValue (CountingProbDist.init os 0) = os.length ∧
    CountingProbDist.probSum (CountingProbDist.init os 0) = 1 ∧
    ∀ o, o ∈ (CountingProbDist.init os 0).dictionary.map Prod.fst ↔ o ∈ os := by
  have hlen : CountingProbDist.total (CountingProbDist.init os 0) = os.length :=
    CountingProbDist.total_init_zero os
  have hne : CountingProbDist.total (CountingProbDist.init os 0) ≠ 0 := by
    rw [hlen]
    intro hz
    exact h (List.length_eq_zero.mp hz)
  have hnd : (((CountingProbDist.init os 0).dictionary).map Prod.fst).Nodup :=
    CountingProbDist.addAll_keys_nodup os (CountingProbDist.empty α 0)
      (by simp [CountingProbDist.empty])
  refine ⟨hlen, ?_, ?_⟩
  · have hval : ∀ p ∈ (CountingProbDist.init os 0).dictionary,
        CountingProbDist.readValueQ (CountingProbDist.init os 0) p.1 =
          ((p.2 : ℕ) : ℚ) / ((os.length : ℕ) : ℚ) := by
      intro p hp
      have hfind : assocFind (CountingProbDist.init os 0).dictionary p.1 = some p.2 :=
        assocFind_of_mem_nodup hnd (by exact hp)
      unfold CountingProbDist.readValueQ
      rw [CountingProbDist.readValue_eq, if_neg hne,
        CountingProbDist.recomputeIfNeeded_dictionary]
      simp [assocFindD, hfind, hlen]
    unfold CountingProbDist.probSum
    rw [List.map_congr_left hval, CountingProbDist.sum_div_counts]
    have hsum : CountingProbDist.sumCounts (CountingProbDist.init os 0).dictionary
        = os.length := by
      unfold CountingProbDist.init
      rw [CountingProbDist.addAll_sumCounts os (CountingProbDist.empty α 0) rfl]
      simp [CountingProbDist.empty, CountingProbDist.sumCounts]
    rw [hsum]
    rw [div_self]
    intro hz
    rw [Nat.cast_eq_zero] at hz
    exact h (List.length_eq_zero.mp hz)
  · intro o
    have := CountingProbDist.addAll_keys_mem os (CountingProbDist.empty α 0) o
    unfold CountingProbDist.init
    rw [this]
    simp [CountingProbDist.empty]

/-- Witness for C9: three observations, two distinct, total 3 and probability
sum 1. -/
theorem claim_C9_witness :
    (["x", "y", "x"] : List String) ≠ [] ∧
    CountingProbDist.lenValue (CountingProbDist.init (["x", "y", "x"]) 0) = 3 ∧
    CountingProbDist.probSum (CountingProbDist.init (["x", "y", "x"]) 0) = 1 :=
  ⟨by decide, (claim_C9 (["x", "y", "x"]) (by decide)).1,
    (claim_C9 (["x", "y", "x"]) (by decide)).2.1⟩

/-!  ### Claim C2: amended claim -/

theorem exceptMapList_ok_forall {γ δ : Type} {f : γ → Except PyError δ}
    {l : List γ} {ys : List δ} (h : exceptMapList f l = Except.ok ys) :
    ∀ y ∈ ys, ∃ x ∈ l, f x = Except.ok y := by
  induction l generalizing ys with
  | nil =>
    simp only [exceptMapList] at h
    cases h
    intro y hy
    simp at hy
  | cons x xs ih =>
    simp only [exceptMapList] at h
    cases hfx : f x with
    | error e => rw [hfx] at h; exact Except.noConfusion h
    | ok y0 =>
      rw [hfx] at h
      cases hrest : exceptMapList f xs with
      | error e => rw [hrest] at h; exact Except.noConfusion h
      | ok ys0 =>
        rw [hrest] at h
        cases h
        intro y hy
        rcases List.mem_cons.mp hy with h1 | h1
        · exact ⟨x, List.mem_cons_self _ _, h1 ▸ hfx⟩
        · obtain ⟨x', hx', hfx'⟩ := ih hrest y h1
          exact ⟨x', List.mem_cons_of_mem _ hx', hfx'⟩

theorem exceptMapList_error_of_exists {γ δ : Type} {f : γ → Except PyError δ}
    {l : List γ} {e : PyError}
    (hall : ∀ x ∈ l, (∃ y, f x = Except.ok y) ∨ f x = Except.error e)
    (hex : ∃ x ∈ l, f x = Except.error e) :
    exceptMapList f l = Except.error e := by
  induction l with
  | nil => obtain ⟨x, hx, _⟩ := hex; simp at hx
  | cons x xs ih =>
    obtain ⟨x0, hx0, hfx0⟩ := hex
    rcases List.mem_cons.mp hx0 with h1 | h1
    · subst h1
      simp only [exceptMapList]
      rw [hfx0]
    · rcases hall x (List.mem_cons_self _ _) with ⟨y, hy⟩ | hy
      · simp only [exceptMapList]
        rw [hy]
        rw [ih (fun z hz => hall z (List.mem_cons_of_mem _ hz)) ⟨x0, h1, hfx0⟩]
      · simp only [exceptMapList]
        rw [hy]

theorem logTerm_ok_pos {e : Except PyError ℚ} {p : ℚ}
    (h : logTerm e = Except.ok p) : 0 < p := by
  cases e with
  | error err => simp [logTerm] at h
  | ok q =>
    simp only [logTerm] at h
    by_cases hq : 0 < q
    · rw [if_pos hq] at h
      cases h
      exact hq
    · rw [if_neg hq] at h
      exact Except.noConfusion h

theorem foldl_mul_nonneg (l : List ℚ) (hl : ∀ q ∈ l, 0 ≤ q) :
    ∀ a : ℚ, 0 ≤ a → 0 ≤ l.foldl (fun a q => a * q) a := by
  induction l with
  | nil => intro a ha; exact ha
  | cons q rest ih =>
    intro a ha
    simp only [List.foldl_cons]
    exact ih (fun z hz => hl z (List.mem_cons_of_mem _ hz)) _
      (mul_nonneg ha (hl q (List.mem_cons_self _ _)))

theorem exceptMapList_ok_of_forall {γ δ : Type} {f : γ → Except PyError δ} :
    ∀ {l : List γ}, (∀ x ∈ l, ∃ y, f x = Except.ok y) →
      ∃ ys, exceptMapList f l = Except.ok ys := by
  intro l
  induction l with
  | nil => intro _; exact ⟨[], rfl⟩
  | cons x xs ih =>
    intro h
    obtain ⟨y, hy⟩ := h x (List.mem_cons_self _ _)
    obtain ⟨ys, hys⟩ := ih (fun z hz => h z (List.mem_cons_of_mem _ hz))
    refine ⟨y :: ys, ?_⟩
    simp only [exceptMapList]
    rw [hy, hys]

theorem total_ne_of_readValue_ok {α : Type} [DecidableEq α]
    {m : CountingProbDist α} {o : α} {q : ℚ}
    (h : CountingProbDist.readValue m o = Except.ok q) :
    CountingProbDist.total m ≠ 0 := by
  intro hz
  rw [CountingProbDist.readValue_eq, if_pos hz] at h
  exact Except.noConfusion h

/-- On a nonempty distribution, `log(P[o])` either succeeds or raises the
math-domain `ValueError` — never any other fault. -/
theorem logTerm_readValue_cases {α : Type} [DecidableEq α]
    (m : CountingProbDist α) (htot : CountingProbDist.total m ≠ 0) (o : α) :
    (∃ y, logTerm (CountingProbDist.readValue m o) = Except.ok y) ∨
      logTerm (CountingProbDist.readValue m o) = Except.error PyError.valueError := by
  rw [CountingProbDist.readValue_eq, if_neg htot]
  simp only [logTerm]
  by_cases hp : 0 < ((assocFindD (CountingProbDist.recomputeIfNeeded m).dictionary o
      (CountingProbDist.recomputeIfNeeded m).dfault : ℕ) : ℚ) /
      ((CountingProbDist.total m : ℕ) : ℚ)
  · exact Or.inl ⟨_, by rw [if_pos hp]⟩
  · exact Or.inr (by rw [if_neg hp])

theorem logTerm_of_zero {e : Except PyError ℚ} (h : e = Except.ok 0) :
    logTerm e = Except.error PyError.valueError := by
  rw [h]
  simp only [logTerm]
  rw [if_neg (by norm_num)]

/-- A whole scoring stage succeeds when every probability it looks up is
positive. -/
theorem logTerm_stage_ok {γ : Type} (g : γ → Except PyError ℚ) (l : List γ)
    (h : ∀ x ∈ l, ∃ p, g x = Except.ok p ∧ 0 < p) :
    ∃ ys, exceptMapList (fun x => logTerm (g x)) l = Except.ok ys := by
  apply exceptMapList_ok_of_forall
  intro x hx
  obtain ⟨p, hp, hpos⟩ := h x hx
  refine ⟨p, ?_⟩
  rw [hp]
  simp only [logTerm]
  rw [if_pos hpos]

/-- C2 (corrected): whenever `PermutationDecoder.score` returns a value, that
value is `exp(Σ log pᵢ) = ∏ pᵢ ≥ 0`; but when any word, letter, or
letter-bigram of the decoded candidate has zero probability while every term
evaluated before it (Python evaluates the word stage, then the letter stage,
then the bigram stage) is positive, `math.log(0.0)` raises `ValueError` — the
score is not returned as 0.0, the call faults.  (The bigram lookups are in
fact always zero because `score` queries two-character strings against a model
keyed by tuples.) -/
theorem claim_C2 (Pwords : CountingProbDist (List Char))
    (P1 : CountingProbDist Char) (P2base : CountingProbDist P2Key)
    (ct : List Char) (code : List (Char × Char)) :
    (∀ q, permScore Pwords P1 P2base ct code = Except.ok q → 0 ≤ q) ∧
    ((∃ w ∈ pywords (decodeUnderCode ct code),
        Pwords.readValue w = Except.ok 0) →
      permScore Pwords P1 P2base ct code = Except.error PyError.valueError) ∧
    ((∀ w ∈ pywords (decodeUnderCode ct code),
        ∃ p, Pwords.readValue w = Except.ok p ∧ 0 < p) →
      (∃ c ∈ decodeUnderCode ct code, P1.readValue c = Except.ok 0) →
      permScore Pwords P1 P2base ct code = Except.error PyError.valueError) ∧
    ((∀ w ∈ pywords (decodeUnderCode ct code),
        ∃ p, Pwords.readValue w = Except.ok p ∧ 0 < p) →
      (∀ c ∈ decodeUnderCode ct code,
        ∃ p, P1.readValue c = Except.ok p ∧ 0 < p) →
      (∃ b ∈ bigrams (decodeUnderCode ct code),
        P2base.readValue (P2Key.str b) = Except.ok 0) →
      permScore Pwords P1 P2base ct code = Except.error PyError.valueError) := by
  refine ⟨?_, ?_, ?_, ?_⟩
  · intro q hq
    unfold permScore at hq
    cases h1 : exceptMapList (fun w => logTerm (Pwords.readValue w))
        (pywords (decodeUnderCode ct code)) with
    | error e => rw [h1] at hq; exact Except.noConfusion hq
    | ok pws =>
      rw [h1] at hq
      cases h2 : exceptMapList (fun c => logTerm (P1.readValue c))
          (decodeUnderCode ct code) with
      | error e => rw [h2] at hq; exact Except.noConfusion hq
      | ok pls =>
        rw [h2] at hq
        cases h3 : exceptMapList
            (fun b => logTerm (P2base.readValue (P2Key.str b)))
            (bigrams (decodeUnderCode ct code)) with
        | error e => rw [h3] at hq; exact Except.noConfusion hq
        | ok pbs =>
          rw [h3] at hq
          cases hq
          refine foldl_mul_nonneg _ ?_ 1 (by norm_num)
          intro z hz
          rcases List.mem_append.mp hz with hz1 | hz1
          · rcases List.mem_append.mp hz1 with hz2 | hz2
            · obtain ⟨x, _, hfx⟩ := exceptMapList_ok_forall h1 z hz2
              exact le_of_lt (logTerm_ok_pos hfx)
            · obtain ⟨x, _, hfx⟩ := exceptMapList_ok_forall h2 z hz2
              exact le_of_lt (logTerm_ok_pos hfx)
          · obtain ⟨x, _, hfx⟩ := exceptMapList_ok_forall h3 z hz1
            exact le_of_lt (logTerm_ok_pos hfx)
  · rintro ⟨w, hw, hww⟩
    have htot := total_ne_of_readValue_ok hww
    have hmap := exceptMapList_error_of_exists
      (fun x _ => logTerm_readValue_cases Pwords htot x)
      ⟨w, hw, logTerm_of_zero hww⟩
    unfold permScore
    rw [hmap]
  · rintro hwpos ⟨c, hc, hcc⟩
    obtain ⟨pws, h1⟩ := logTerm_stage_ok (fun w => Pwords.readValue w)
      (pywords (decodeUnderCode ct code)) hwpos
    have htot := total_ne_of_readValue_ok hcc
    have hmap := exceptMapList_error_of_exists
      (fun x _ => logTerm_readValue_cases P1 htot x)
      ⟨c, hc, logTerm_of_zero hcc⟩
    unfold permScore
    rw [h1]
    simp only []
    rw [hmap]
  · rintro hwpos hlpos ⟨b, hb, hbb⟩
    obtain ⟨pws, h1⟩ := logTerm_stage_ok (fun w => Pwords.readValue w)
      (pywords (decodeUnderCode ct code)) hwpos
    obtain ⟨pls, h2⟩ := logTerm_stage_ok (fun c => P1.readValue c)
      (decodeUnderCode ct code) hlpos
    have htot := total_ne_of_readValue_ok hbb
    have hmap := exceptMapList_error_of_exists
      (fun x _ => logTerm_readValue_cases P2base htot (P2Key.str x))
      ⟨b, hb, logTerm_of_zero hbb⟩
    unfold permScore
    rw [h1]
    simp only []
    rw [h2]
    simp only []
    rw [hmap]

/-- Witness for C2: three concrete fault scenarios — a zero-probability word
(word model trained on "ab", decoded text "c"), a zero-probability letter
(letter model trained on "b", decoded text "a", word stage positive), and a
zero-probability bigram (bigram model storing only the tuple key, decoded text
"ab", word and letter stages positive) — each making score raise `ValueError`. -/
theorem claim_C2_witness :
    ((∃ w ∈ pywords (decodeUnderCode (("c").toList) []),
      (CountingProbDist.init [("ab").toList] 0).readValue w = Except.ok 0) ∧
    permScore (CountingProbDist.init [("ab").toList] 0)
      (CountingProbDist.init ([] : List Char) 0)
      (CountingProbDist.init ([] : List P2Key) 0) (("c").toList) [] =
      Except.error PyError.valueError) ∧
    ((∀ w ∈ pywords (decodeUnderCode (("a").toList) []),
      ∃ p, (CountingProbDist.init [("a").toList] 0).readValue w = Except.ok p ∧ 0 < p) ∧
    (∃ c ∈ decodeUnderCode (("a").toList) [],
      (CountingProbDist.init (['b']) 0).readValue c = Except.ok 0) ∧
    permScore (CountingProbDist.init [("a").toList] 0)
      (CountingProbDist.init (['b']) 0)
      (CountingProbDist.init ([] : List P2Key) 0) (("a").toList) [] =
      Except.error PyError.valueError) ∧
    ((∃ b ∈ bigrams (decodeUnderCode (("ab").toList) []),
      (CountingProbDist.init [P2Key.tup (("ab").toList)] 0).readValue
        (P2Key.str b) = Except.ok 0) ∧
    permScore (CountingProbDist.init [("ab").toList] 0)
      (CountingProbDist.init (("ab").toList) 0)
      (CountingProbDist.init [P2Key.tup (("ab").toList)] 0) (("ab").toList) [] =
      Except.error PyError.valueError) := by
  have hx : ∃ w ∈ pywords (decodeUnderCode (("c").toList) []),
      (CountingProbDist.init [("ab").toList] 0).readValue w = Except.ok 0 := by
    refine ⟨('c' :: []), by decide, ?_⟩
    norm_num +decide [CountingProbDist.readValue_eq, CountingProbDist.init,
      CountingProbDist.addAll, CountingProbDist.add, CountingProbDist.empty,
      CountingProbDist.total, CountingProbDist.recomputeIfNeeded,
      CountingProbDist.recompute, assocStore, assocFind, assocFindD]
  have hwpos1 : ∀ w ∈ pywords (decodeUnderCode (("a").toList) []),
      ∃ p, (CountingProbDist.init [("a").toList] 0).readValue w = Except.ok p ∧ 0 < p := by
    have hpw : pywords (decodeUnderCode (("a").toList) []) = [('a' :: [])] := by
      decide
    intro w hw
    rw [hpw, List.mem_singleton] at hw
    subst hw
    refine ⟨1, ?_, by norm_num⟩
    norm_num +decide [CountingProbDist.readValue_eq, CountingProbDist.init,
      CountingProbDist.addAll, CountingProbDist.add, CountingProbDist.empty,
      CountingProbDist.total, CountingProbDist.recomputeIfNeeded,
      CountingProbDist.recompute, assocStore, assocFind, assocFindD]
  have hlz : ∃ c ∈ decodeUnderCode (("a").toList) [],
      (CountingProbDist.init (['b']) 0).readValue c = Except.ok 0 := by
    refine ⟨'a', by decide, ?_⟩
    norm_num +decide [CountingProbDist.readValue_eq, CountingProbDist.init,
      CountingProbDist.addAll, CountingProbDist.add, CountingProbDist.empty,
      CountingProbDist.total, CountingProbDist.recomputeIfNeeded,
      CountingProbDist.recompute, assocStore, assocFind, assocFindD]
  have hwpos2 : ∀ w ∈ pywords (decodeUnderCode (("ab").toList) []),
      ∃ p, (CountingProbDist.init [("ab").toList] 0).readValue w = Except.ok p ∧ 0 < p := by
    have hpw : pywords (decodeUnderCode (("ab").toList) []) =
        [('a' :: 'b' :: [])] := by
      decide
    intro w hw
    rw [hpw, List.mem_singleton] at hw
    subst hw
    refine ⟨1, ?_, by norm_num⟩
    norm_num +decide [CountingProbDist.readValue_eq, CountingProbDist.init,
      CountingProbDist.addAll, CountingProbDist.add, CountingProbDist.empty,
      CountingProbDist.total, CountingProbDist.recomputeIfNeeded,
      CountingProbDist.recompute, assocStore, assocFind, assocFindD]
  have hlpos2 : ∀ c ∈ decodeUnderCode (("ab").toList) [],
      ∃ p, (CountingProbDist.init (("ab").toList) 0).readValue c = Except.ok p ∧ 0 < p := by
    have hdec : decodeUnderCode (("ab").toList) [] = ('a' :: 'b' :: []) := by
      decide
    intro c hc
    rw [hdec] at hc
    rcases List.mem_cons.mp hc with h1 | h1
    · subst h1
      refine ⟨1/2, ?_, by norm_num⟩
      norm_num +decide [CountingProbDist.readValue_eq, CountingProbDist.init,
        CountingProbDist.addAll, CountingProbDist.add, CountingProbDist.empty,
        CountingProbDist.total, CountingProbDist.recomputeIfNeeded,
        CountingProbDist.recompute, assocStore, assocFind, assocFindD]
    · rw [List.mem_singleton] at h1
      subst h1
      refine ⟨1/2, ?_, by norm_num⟩
      norm_num +decide [CountingProbDist.readValue_eq, CountingProbDist.init,
        CountingProbDist.addAll, CountingProbDist.add, CountingProbDist.empty,
        CountingProbDist.total, CountingProbDist.recomputeIfNeeded,
        CountingProbDist.recompute, assocStore, assocFind, assocFindD]
  have hbz : ∃ b ∈ bigrams (decodeUnderCode (("ab").toList) []),
      (CountingProbDist.init [P2Key.tup (("ab").toList)] 0).readValue
        (P2Key.str b) = Except.ok 0 := by
    refine ⟨('a' :: 'b' :: []), by decide, ?_⟩
    norm_num +decide [CountingProbDist.readValue_eq, CountingProbDist.init,
      CountingProbDist.addAll, CountingProbDist.add, CountingProbDist.empty,
      CountingProbDist.total, CountingProbDist.recomputeIfNeeded,
      CountingProbDist.recompute, assocStore, assocFind, assocFindD]
  refine ⟨⟨hx, ?_⟩, ⟨hwpos1, hlz, ?_⟩, ⟨hbz, ?_⟩⟩
  · exact (claim_C2 (CountingProbDist.init [("ab").toList] 0)
      (CountingProbDist.init ([] : List Char) 0)
      (CountingProbDist.init ([] : List P2Key) 0) (("c").toList) []).2.1 hx
  · exact (claim_C2 (CountingProbDist.init [("a").toList] 0)
      (CountingProbDist.init (['b']) 0)
      (CountingProbDist.init ([] : List P2Key) 0) (("a").toList) []).2.2.1
      hwpos1 hlz
  · exact (claim_C2 (CountingProbDist.init [("ab").toList] 0)
      (CountingProbDist.init (("ab").toList) 0)
      (CountingProbDist.init [P2Key.tup (("ab").toList)] 0)
      (("ab").toList) []).2.2.2 hwpos2 hlpos2 hbz

/-!  ### Claim C8 -/

theorem assocFind_none_of_not_mem {α β : Type} [DecidableEq α]
    {l : List (α × β)} {k : α} (h : ¬ k ∈ l.map Prod.fst) :
    assocFind l k = none := by
  cases hf : assocFind l k with
  | none => rfl
  | some v => exact absurd (List.mem_map.mpr ⟨(k, v), assocFind_mem hf, rfl⟩) h

/-- Every entry of the rot13 translation table is undone by translating its
image again: the table is its own inverse, pair by pair. -/
theorem transTable13_all_invol :
    ∀ p ∈ transTable (alphabet.drop 13 ++ alphabet.take 13),
      translateChar (transTable (alphabet.drop 13 ++ alphabet.take 13)) p.2 = p.1 := by
  decide

/-- Every key of the rot13 translation table is an ASCII letter. -/
theorem transTable13_keys_alpha :
    ∀ k ∈ (transTable (alphabet.drop 13 ++ alphabet.take 13)).map Prod.fst,
      k.isAlpha := by
  decide

theorem translateChar13_invol (c : Char) :
    translateChar (transTable (alphabet.drop 13 ++ alphabet.take 13))
      (translateChar (transTable (alphabet.drop 13 ++ alphabet.take 13)) c) = c := by
  cases hf : assocFind (transTable (alphabet.drop 13 ++ alphabet.take 13)) c with
  | none =>
    have h1 : translateChar (transTable (alphabet.drop 13 ++ alphabet.take 13)) c = c := by
      unfold translateChar
      rw [hf]
      rfl
    rw [h1, h1]
  | some v =>
    have hmem : (c, v) ∈ transTable (alphabet.drop 13 ++ alphabet.take 13) :=
      assocFind_mem hf
    have h1 : translateChar (transTable (alphabet.drop 13 ++ alphabet.take 13)) c = v := by
      unfold translateChar
      rw [hf]
      rfl
    rw [h1, transTable13_all_invol (c, v) hmem]

/-- C8 (confirmed): `rot13(rot13(x)) == x` for every string — letters of both
cases included — and every non-letter character (digits, punctuation,
whitespace) passes through `rot13` unchanged. -/
theorem claim_C8 :
    (∀ x : List Char, rot13 (rot13 x) = x) ∧
    (∀ c : Char, ¬ c.isAlpha → rot13 [c] = [c]) := by
  constructor
  · intro x
    show (x.map (translateChar (transTable (alphabet.drop 13 ++ alphabet.take 13)))).map
        (translateChar (transTable (alphabet.drop 13 ++ alphabet.take 13))) = x
    rw [List.map_map]
    have hcc : ∀ c ∈ x,
        (translateChar (transTable (alphabet.drop 13 ++ alphabet.take 13)) ∘
          translateChar (transTable (alphabet.drop 13 ++ alphabet.take 13))) c = c :=
      fun c _ => translateChar13_invol c
    rw [List.map_congr_left hcc]
    simp
  · intro c hc
    have hk : ¬ c ∈ (transTable (alphabet.drop 13 ++ alphabet.take 13)).map Prod.fst :=
      fun hmem => hc (transTable13_keys_alpha c hmem)
    show [translateChar (transTable (alphabet.drop 13 ++ alphabet.take 13)) c] = [c]
    unfold translateChar
    rw [assocFind_none_of_not_mem hk]
    rfl

/-- Witness for C8: a mixed-case string with a digit and punctuation is fixed
by double rot13, and the digit passes through a single rot13 unchanged. -/
theorem claim_C8_witness :
    rot13 (rot13 (("Ab3!").toList)) = ("Ab3!").toList ∧
    ¬ ('3').isAlpha ∧ rot13 (['3']) = ['3'] :=
  ⟨claim_C8.1 (("Ab3!").toList), by decide, claim_C8.2 '3' (by decide)⟩

/-!  ### Claim C7 -/

theorem readValue_ok_of_total_ne {α : Type} [DecidableEq α]
    (m : CountingProbDist α) (h : CountingProbDist.total m ≠ 0) (o : α) :
    CountingProbDist.readValue m o =
      Except.ok (CountingProbDist.readValueQ m o) := by
  have he := CountingProbDist.readValue_eq m o
  rw [if_neg h] at he
  simp [CountingProbDist.readValueQ, he]

theorem shiftScore_fold_ok (sd : ShiftDecoder)
    (h : CountingProbDist.total sd.P2 ≠ 0) :
    ∀ (l : List (List Char)) (a : ℚ),
      exceptFoldList
        (fun s bi =>
          match sd.P2.readValue bi with
          | Except.error e => Except.error e
          | Except.ok p => Except.ok (s * p)) a l =
      Except.ok (l.foldl (fun s bi => s * sd.P2.readValueQ bi) a) := by
  intro l
  induction l with
  | nil => intro a; rfl
  | cons bi rest ih =>
    intro a
    simp only [exceptFoldList, List.foldl_cons]
    rw [readValue_ok_of_total_ne sd.P2 h bi]
    exact ih _

/-- With a nonempty training distribution, `score` returns the bigram
product. -/
theorem shiftScore_ok (sd : ShiftDecoder)
    (h : CountingProbDist.total sd.P2 ≠ 0) (pt : List Char) :
    ShiftDecoder.score sd pt = Except.ok (scoreVal sd pt) := by
  unfold ShiftDecoder.score scoreVal
  exact shiftScore_fold_ok sd h (bigrams pt) 1

theorem argmaxFold_eq {γ : Type} (f : γ → Except PyError ℚ) (g : γ → ℚ)
    (xs : List γ) (hf : ∀ x ∈ xs, f x = Except.ok (g x)) :
    ∀ acc : γ × ℚ,
      exceptFoldList
        (fun acc y =>
          match f y with
          | Except.error e => Except.error e
          | Except.ok fy => Except.ok (if acc.2 < fy then (y, fy) else acc))
        acc xs =
      Except.ok (firstMaxAux g acc xs) := by
  induction xs with
  | nil => intro acc; rfl
  | cons y ys ih =>
    intro acc
    simp only [exceptFoldList, firstMaxAux]
    rw [hf y (List.mem_cons_self _ _)]
    exact ih (fun z hz => hf z (List.mem_cons_of_mem _ hz)) _

theorem argmaxSpec_eq {γ : Type} (f : γ → Except PyError ℚ) (g : γ → ℚ)
    (x : γ) (xs : List γ) (hf : ∀ y ∈ x :: xs, f y = Except.ok (g y)) :
    argmaxSpec (x :: xs) f = Except.ok (some (firstMaxAux g (x, g x) xs).1) := by
  have h0 : argmaxSpec (x :: xs) f =
      match f x with
      | Except.error e => Except.error e
      | Except.ok fx =>
        match exceptFoldList
            (fun acc y =>
              match f y with
              | Except.error e => Except.error e
              | Except.ok fy => Except.ok (if acc.2 < fy then (y, fy) else acc))
            (x, fx) xs with
        | Except.error e => Except.error e
        | Except.ok r => Except.ok (some r.1) := rfl
  rw [h0, hf x (List.mem_cons_self _ _)]
  simp only []
  rw [argmaxFold_eq f g xs (fun z hz => hf z (List.mem_cons_of_mem _ hz)) (x, g x)]

theorem firstMaxAux_spec {γ : Type} (g : γ → ℚ) (d : γ) (ys : List γ) :
    ∀ (cur : List γ) (acc : γ × ℚ) (i : ℕ),
      i < cur.length → acc.1 = cur.getD i d → acc.2 = g acc.1 →
      (∀ j, j < cur.length → g (cur.getD j d) ≤ acc.2) →
      (∀ j, j < i → g (cur.getD j d) < acc.2) →
      ∃ i', i' < (cur ++ ys).length ∧
        (firstMaxAux g acc ys).1 = (cur ++ ys).getD i' d ∧
        (∀ j, j < (cur ++ ys).length →
          g ((cur ++ ys).getD j d) ≤ g ((cur ++ ys).getD i' d)) ∧
        (∀ j, j < i' → g ((cur ++ ys).getD j d) < g ((cur ++ ys).getD i' d)) := by
  induction ys with
  | nil =>
    intro cur acc i hi h1 h2 h3 h4
    refine ⟨i, by simpa using hi, by simpa using h1, ?_, ?_⟩
    · intro j hj
      rw [List.append_nil]
      rw [List.append_nil] at hj
      calc g (cur.getD j d) ≤ acc.2 := h3 j hj
        _ = g (cur.getD i d) := by rw [h2, h1]
    · intro j hj
      rw [List.append_nil]
      calc g (cur.getD j d) < acc.2 := h4 j hj
        _ = g (cur.getD i d) := by rw [h2, h1]
  | cons y ys ih =>
    intro cur acc i hi h1 h2 h3 h4
    have hsplit : cur ++ y :: ys = (cur ++ [y]) ++ ys := by simp
    rw [hsplit]
    show ∃ i', i' < ((cur ++ [y]) ++ ys).length ∧
      (firstMaxAux g (if acc.2 < g y then (y, g y) else acc) ys).1 = _ ∧ _ ∧ _
    by_cases hy : acc.2 < g y
    · rw [if_pos hy]
      refine ih (cur ++ [y]) (y, g y) cur.length (by simp) ?_ rfl ?_ ?_
      · rw [List.getD_append_right _ _ _ _ (le_refl _)]
        simp
      · intro j hj
        simp only [List.length_append, List.length_singleton] at hj
        by_cases hjc : j < cur.length
        · rw [List.getD_append _ _ _ _ hjc]
          exact le_of_lt (lt_of_le_of_lt (h3 j hjc) hy)
        · have hje : j = cur.length := by omega
          subst hje
          rw [List.getD_append_right _ _ _ _ (le_refl _)]
          simp
      · intro j hj
        rw [List.getD_append _ _ _ _ hj]
        exact lt_of_le_of_lt (h3 j hj) hy
    · rw [if_neg hy]
      refine ih (cur ++ [y]) acc i (by simp; omega) ?_ h2 ?_ ?_
      · rw [List.getD_append _ _ _ _ hi]
        exact h1
      · intro j hj
        simp only [List.length_append, List.length_singleton] at hj
        by_cases hjc : j < cur.length
        · rw [List.getD_append _ _ _ _ hjc]
          exact h3 j hjc
        · have hje : j = cur.length := by omega
          subst hje
          rw [List.getD_append_right _ _ _ _ (le_refl _)]
          simpa using le_of_not_lt hy
      · intro j hj
        rw [List.getD_append _ _ _ _ (lt_trans hj hi)]
        exact h4 j hj

theorem argmaxSpec_first_max {γ : Type} (d : γ) (f : γ → Except PyError ℚ)
    (g : γ → ℚ) (l : List γ) (hne : l ≠ [])
    (hf : ∀ y ∈ l, f y = Except.ok (g y)) :
    ∃ i, i < l.length ∧ argmaxSpec l f = Except.ok (some (l.getD i d)) ∧
      (∀ j, j < l.length → g (l.getD j d) ≤ g (l.getD i d)) ∧
      (∀ j, j < i → g (l.getD j d) < g (l.getD i d)) := by
  match l, hne with
  | x :: xs, _ =>
    rw [argmaxSpec_eq f g x xs hf]
    obtain ⟨i', hlt, h1, h2, h3⟩ :=
      firstMaxAux_spec g d xs [x] (x, g x) 0 (by simp) (by simp) rfl
        (by intro j hj
            simp only [List.length_singleton] at hj
            have : j = 0 := by omega
            subst this
            simp)
        (by intro j hj; omega)
    have hxl : ([x] ++ xs) = x :: xs := by simp
    rw [hxl] at hlt h1 h2 h3
    exact ⟨i', hlt, by rw [h1], h2, h3⟩

theorem all_shifts_getD (ct : List Char) (j : ℕ) (hj : j < 26) :
    (all_shifts ct).getD j [] = shift_encode ct j := by
  unfold all_shifts
  have hlen : j < ((List.range alphabet.length).map
      (fun n => shift_encode ct n)).length := by
    simp [alphabet]
    omega
  rw [List.getD_eq_getElem _ _ hlen]
  simp

theorem all_shifts_length (ct : List Char) : (all_shifts ct).length = 26 := by
  simp [all_shifts, alphabet]

/-- C7 (corrected): a `ShiftDecoder` whose training produced at least one
bigram always decodes to a definite answer — among the 26 shift candidates it
returns the one of maximal bigram-product score with ties broken by evaluation
order (every smaller shift index scores strictly less); and on the empty
ciphertext every decoder returns the empty string rather than crashing.  The
original claim's "always terminates with a definite answer, cannot fail short
of empty ciphertext" is false without the nonempty-training proviso: a decoder
trained on bigram-less text has an empty smoothed table, and scoring any
candidate with a bigram divides by zero (`claim_C7_counterexample`). -/
theorem claim_C7 :
    (∀ (sd : ShiftDecoder), CountingProbDist.total sd.P2 ≠ 0 → ∀ ct : List Char,
      ∃ k, k < 26 ∧
        ShiftDecoder.decode sd ct = Except.ok (some (shift_encode ct k)) ∧
        (∀ j, j < 26 →
          scoreVal sd (shift_encode ct j) ≤ scoreVal sd (shift_encode ct k)) ∧
        (∀ j, j < k →
          scoreVal sd (shift_encode ct j) < scoreVal sd (shift_encode ct k))) ∧
    (∀ sd : ShiftDecoder, ShiftDecoder.decode sd [] = Except.ok (some [])) := by
  constructor
  · intro sd htot ct
    have hne : all_shifts ct ≠ [] := by
      intro h
      have := all_shifts_length ct
      rw [h] at this
      simp at this
    obtain ⟨k, hk, hdec, hmax, hfirst⟩ :=
      argmaxSpec_first_max ([] : List Char) sd.score (scoreVal sd)
        (all_shifts ct) hne (fun y _ => shiftScore_ok sd htot y)
    rw [all_shifts_length] at hk
    refine ⟨k, hk, ?_, ?_, ?_⟩
    · show argmaxSpec (all_shifts ct) sd.score = _
      rw [hdec, all_shifts_getD ct k hk]
    · intro j hj
      have := hmax j (by rw [all_shifts_length]; exact hj)
      rwa [all_shifts_getD ct j hj, all_shifts_getD ct k hk] at this
    · intro j hj
      have := hfirst j hj
      rwa [all_shifts_getD ct j (lt_trans hj hk), all_shifts_getD ct k hk] at this
  · intro sd
    rfl

/-- C7 counterexample: a decoder trained on text with no bigrams (training
text "a") has an empty bigram table, and decoding the non-empty ciphertext
"ab" raises `ZeroDivisionError` from the very first candidate's score — it
does not return any of the 26 shift candidates, refuting "always terminates
with a definite answer" / "cannot fail short of empty ciphertext". -/
theorem claim_C7_counterexample :
    ShiftDecoder.decode (ShiftDecoder.ofTraining (("a").toList)) (("ab").toList)
      = Except.error PyError.zeroDivisionError :=
  rfl

/-- Witness for C7: the decoder trained on "ab" has a nonempty bigram table and
decodes the one-letter ciphertext "a" to a definite maximal-score shift. -/
theorem claim_C7_witness :
    CountingProbDist.total (ShiftDecoder.ofTraining (("ab").toList)).P2 ≠ 0 ∧
    (∃ k, k < 26 ∧
      ShiftDecoder.decode (ShiftDecoder.ofTraining (("ab").toList)) (("a").toList)
        = Except.ok (some (shift_encode (("a").toList) k)) ∧
      (∀ j, j < 26 →
        scoreVal (ShiftDecoder.ofTraining (("ab").toList))
            (shift_encode (("a").toList) j) ≤
          scoreVal (ShiftDecoder.ofTraining (("ab").toList))
            (shift_encode (("a").toList) k)) ∧
      (∀ j, j < k →
        scoreVal (ShiftDecoder.ofTraining (("ab").toList))
            (shift_encode (("a").toList) j) <
          scoreVal (ShiftDecoder.ofTraining (("ab").toList))
            (shift_encode (("a").toList) k))) :=
  ⟨by decide, claim_C7.1 (ShiftDecoder.ofTraining (("ab").toList)) (by decide)
    (("a").toList)⟩

/-!  ### Claim C4: the inner-loop tie-break -/

theorem sliceText_length (text : List Char) (j i : ℕ) (h : i ≤ text.length) :
    (sliceText text j i).length = i - j := by
  unfold sliceText
  rw [List.length_take, List.length_drop]
  omega

theorem list_getD_set_ne {δ : Type} (l : List δ) (n j : ℕ) (a dv : δ)
    (h : j ≠ n) : (l.set n a).getD j dv = l.getD j dv := by
  induction l generalizing n j with
  | nil => simp
  | cons x xs ih =>
    cases n with
    | zero =>
      cases j with
      | zero => exact absurd rfl h
      | succ j => simp [List.set]
    | succ n =>
      cases j with
      | zero => simp [List.set]
      | succ j =>
        simp only [List.set, List.getD_cons_succ]
        exact ih n j (fun he => h (by rw [he]))

theorem list_getD_set_self {δ : Type} (l : List δ) (n : ℕ) (a dv : δ)
    (h : n < l.length) : (l.set n a).getD n dv = a := by
  induction l generalizing n with
  | nil => simp at h
  | cons x xs ih =>
    cases n with
    | zero => simp [List.set]
    | succ n =>
      simp only [List.set, List.getD_cons_succ]
      exact ih n (by simpa using h)

theorem readValueQ_nonneg {α : Type} [DecidableEq α] (m : CountingProbDist α)
    (o : α) : 0 ≤ CountingProbDist.readValueQ m o := by
  unfold CountingProbDist.readValueQ
  rw [CountingProbDist.readValue_eq]
  by_cases h : CountingProbDist.total m = 0
  · rw [if_pos h]
  · rw [if_neg h]
    simp only []
    exact div_nonneg (Nat.cast_nonneg _) (Nat.cast_nonneg _)

theorem lastArgmaxAux_fst_nonneg (f : ℕ → ℚ) : ∀ k, 0 ≤ (lastArgmaxAux f k).1 := by
  intro k
  induction k with
  | zero => exact le_refl 0
  | succ k ih =>
    simp only [lastArgmaxAux]
    by_cases hc : (lastArgmaxAux f k).1 ≤ f k
    · rw [if_pos hc]
      exact le_trans ih hc
    · rw [if_neg hc]
      exact ih

theorem lastArgmaxAux_ge (f : ℕ → ℚ) :
    ∀ k j, j < k → f j ≤ (lastArgmaxAux f k).1 := by
  intro k
  induction k with
  | zero => intro j hj; omega
  | succ k ih =>
    intro j hj
    simp only [lastArgmaxAux]
    by_cases hc : (lastArgmaxAux f k).1 ≤ f k
    · rw [if_pos hc]
      rcases Nat.lt_succ_iff_lt_or_eq.mp hj with h1 | h1
      · exact le_trans (ih j h1) hc
      · subst h1
        exact le_refl _
    · rw [if_neg hc]
      rcases Nat.lt_succ_iff_lt_or_eq.mp hj with h1 | h1
      · exact ih j h1
      · subst h1
        exact le_of_lt (lt_of_not_le hc)

theorem lastArgmaxAux_snd (f : ℕ → ℚ) (hnn : ∀ j, 0 ≤ f j) :
    ∀ k, 1 ≤ k → ∃ j', (lastArgmaxAux f k).2 = some j' ∧ j' < k ∧
      f j' = (lastArgmaxAux f k).1 ∧
      (∀ j, j' < j → j < k → f j < f j') := by
  intro k
  induction k with
  | zero => omega
  | succ k ih =>
    intro _
    by_cases hc : (lastArgmaxAux f k).1 ≤ f k
    · refine ⟨k, ?_, Nat.lt_succ_self k, ?_, ?_⟩
      · simp only [lastArgmaxAux]
        rw [if_pos hc]
      · simp only [lastArgmaxAux]
        rw [if_pos hc]
      · intro j hj1 hj2
        omega
    · have hk1 : 1 ≤ k := by
        by_contra h0
        have hk0 : k = 0 := by omega
        subst hk0
        exact hc (by simpa [lastArgmaxAux] using hnn 0)
      obtain ⟨j', h1, h2, h3, h4⟩ := ih hk1
      refine ⟨j', ?_, by omega, ?_, ?_⟩
      · simp only [lastArgmaxAux]
        rw [if_neg hc]
        exact h1
      · simp only [lastArgmaxAux]
        rw [if_neg hc]
        exact h3
      · intro j hj1 hj2
        rcases Nat.lt_succ_iff_lt_or_eq.mp hj2 with h5 | h5
        · exact h4 j hj1 h5
        · subst h5
          rw [h3]
          exact lt_of_not_le hc

theorem viterbiInner_ok (P : CountingProbDist (List Char)) (text : List Char)
    (i : ℕ) (htot : CountingProbDist.total P ≠ 0) :
    ∀ (l : List ℕ) (st : List ℚ × List (List Char)),
      exceptFoldList (viterbiStep P text i) st l =
        Except.ok (l.foldl (viterbiStepPure P text i) st) := by
  intro l
  induction l with
  | nil => intro st; rfl
  | cons j rest ih =>
    intro st
    have hstep : viterbiStep P text i st j =
        Except.ok (viterbiStepPure P text i st j) := by
      unfold viterbiStep viterbiStepPure
      rw [readValue_ok_of_total_ne P htot]
    simp only [exceptFoldList, List.foldl_cons]
    rw [hstep]
    exact ih _

/-- The state of the Viterbi inner loop for end position `i` after the first
`k` start positions: entries other than `i` are untouched, `best[i]` holds the
running maximum of the candidate probabilities with last-tie-wins, and
`words[i]` holds the slice recorded by the last overwrite. -/
theorem viterbi_inner_invariant (P : CountingProbDist (List Char))
    (text : List Char) (i : ℕ) (st : List ℚ × List (List Char))
    (hilen : i ≤ text.length) (hb : i < st.1.length) (hw : i < st.2.length)
    (hzero : st.1.getD i 0 = 0) :
    ∀ k, k ≤ i →
      (((List.range k).foldl (viterbiStepPure P text i) st).1.length = st.1.length) ∧
      (((List.range k).foldl (viterbiStepPure P text i) st).2.length = st.2.length) ∧
      (∀ j, j ≠ i →
        ((List.range k).foldl (viterbiStepPure P text i) st).1.getD j 0
          = st.1.getD j 0) ∧
      (∀ j, j ≠ i →
        ((List.range k).foldl (viterbiStepPure P text i) st).2.getD j []
          = st.2.getD j []) ∧
      (((List.range k).foldl (viterbiStepPure P text i) st).1.getD i 0 =
        (lastArgmaxAux (fun j => candVal P text st.1 i j) k).1) ∧
      (((List.range k).foldl (viterbiStepPure P text i) st).2.getD i [] =
        match (lastArgmaxAux (fun j => candVal P text st.1 i j) k).2 with
        | none => st.2.getD i []
        | some j => sliceText text j i) := by
  intro k
  induction k with
  | zero =>
    intro _
    refine ⟨rfl, rfl, fun j _ => rfl, fun j _ => rfl, ?_, rfl⟩
    simpa [lastArgmaxAux] using hzero
  | succ k ih =>
    intro hk
    obtain ⟨ih1, ih2, ih3, ih4, ih5, ih6⟩ := ih (by omega)
    rw [List.range_succ, List.foldl_append, List.foldl_cons, List.foldl_nil]
    have hkne : k ≠ i := by omega
    have hidx : i - (sliceText text k i).length = k := by
      rw [sliceText_length text k i hilen]
      omega
    have hcand : candVal P text st.1 i k =
        CountingProbDist.readValueQ P (sliceText text k i) * st.1.getD k 0 := by
      unfold candVal
      rw [hidx]
    simp only [viterbiStepPure, viterbiStepP, hidx, ih3 k hkne, ih5]
    simp only [lastArgmaxAux]
    rw [← hcand]
    by_cases hc : (lastArgmaxAux (fun j => candVal P text st.1 i j) k).1 ≤
        candVal P text st.1 i k
    · rw [if_pos hc, if_pos hc]
      have hbl : i < ((List.range k).foldl (viterbiStepPure P text i) st).1.length := by
        rw [ih1]; exact hb
      have hwl : i < ((List.range k).foldl (viterbiStepPure P text i) st).2.length := by
        rw [ih2]; exact hw
      refine ⟨by simp [ih1], by simp [ih2], ?_, ?_, ?_, ?_⟩
      · intro j hj
        rw [list_getD_set_ne _ _ _ _ _ hj]
        exact ih3 j hj
      · intro j hj
        rw [list_getD_set_ne _ _ _ _ _ hj]
        exact ih4 j hj
      · rw [list_getD_set_self _ _ _ _ hbl]
      · rw [list_getD_set_self _ _ _ _ hwl]
    · rw [if_neg hc, if_neg hc]
      exact ⟨ih1, ih2, ih3, ih4, ih5, ih6⟩

/-- C4 (corrected): in the Viterbi inner loop for an end position `i`, the word
recorded at `i` is the slice starting at the last start index `j*` achieving
the maximal candidate probability as `j` increases — which, ties included, is
the SHORTEST word achieving the maximum (the claim names the longest; the last
candidate scanned is the one with the largest `j`, hence the shortest slice). -/
theorem claim_C4 (P : CountingProbDist (List Char)) (text : List Char)
    (i : ℕ) (st : List ℚ × List (List Char))
    (hi : 1 ≤ i) (hilen : i ≤ text.length)
    (hb : i < st.1.length) (hw : i < st.2.length)
    (hnn : ∀ j, 0 ≤ st.1.getD j 0) (hzero : st.1.getD i 0 = 0)
    (htot : CountingProbDist.total P ≠ 0) :
    ∃ st', viterbiInner P text i st = Except.ok st' ∧
      ∃ j', j' < i ∧
        st'.2.getD i [] = sliceText text j' i ∧
        st'.1.getD i 0 = candVal P text st.1 i j' ∧
        (∀ j, j < i → candVal P text st.1 i j ≤ candVal P text st.1 i j') ∧
        (∀ j, j' < j → j < i → candVal P text st.1 i j < candVal P text st.1 i j') ∧
        (∀ j, j < i → candVal P text st.1 i j = candVal P text st.1 i j' →
          (sliceText text j' i).length ≤ (sliceText text j i).length) := by
  have hcnn : ∀ j, 0 ≤ candVal P text st.1 i j := by
    intro j
    exact mul_nonneg (readValueQ_nonneg P _) (hnn _)
  obtain ⟨inv1, inv2, inv3, inv4, inv5, inv6⟩ :=
    viterbi_inner_invariant P text i st hilen hb hw hzero i (le_refl i)
  obtain ⟨j', hsnd, hj'lt, hmaxeq, hafter⟩ :=
    lastArgmaxAux_snd (fun j => candVal P text st.1 i j) hcnn i hi
  refine ⟨(List.range i).foldl (viterbiStepPure P text i) st, ?_, j', hj'lt, ?_, ?_, ?_, ?_, ?_⟩
  · unfold viterbiInner
    exact viterbiInner_ok P text i htot (List.range i) st
  · rw [inv6, hsnd]
  · rw [inv5, ← hmaxeq]
  · intro j hj
    rw [hmaxeq]
    exact lastArgmaxAux_ge _ i j hj
  · intro j hj1 hj2
    exact hafter j hj1 hj2
  · intro j hj htie
    have hjle : j ≤ j' := by
      by_contra hgt
      have := hafter j (by omega) hj
      rw [htie] at this
      exact lt_irrefl _ this
    rw [sliceText_length text j' i hilen, sliceText_length text j i hilen]
    omega

/-- Witness for C4: the tie situation of the counterexample run through the
amended theorem — at end position 2 on "ab" the recorded word is the slice at
the last tying start index 1, the one-letter "b". -/
theorem claim_C4_witness :
    (∃ st', viterbiInner
        (CountingProbDist.init [("ab").toList, ("a").toList, ("a").toList,
          ("b").toList, ("b").toList, ("b").toList] 0)
        (("ab").toList) 2 ([1, 1/3, 0], [[], ['a'], ['b']]) = Except.ok st' ∧
      ∃ j', j' < 2 ∧
        st'.2.getD 2 [] = sliceText (("ab").toList) j' 2 ∧
        st'.1.getD 2 0 = candVal
          (CountingProbDist.init [("ab").toList, ("a").toList, ("a").toList,
            ("b").toList, ("b").toList, ("b").toList] 0)
          (("ab").toList) [1, 1/3, 0] 2 j' ∧
        (∀ j, j < 2 → candVal
            (CountingProbDist.init [("ab").toList, ("a").toList, ("a").toList,
              ("b").toList, ("b").toList, ("b").toList] 0)
            (("ab").toList) [1, 1/3, 0] 2 j ≤ candVal
            (CountingProbDist.init [("ab").toList, ("a").toList, ("a").toList,
              ("b").toList, ("b").toList, ("b").toList] 0)
            (("ab").toList) [1, 1/3, 0] 2 j') ∧
        (∀ j, j' < j → j < 2 → candVal
            (CountingProbDist.init [("ab").toList, ("a").toList, ("a").toList,
              ("b").toList, ("b").toList, ("b").toList] 0)
            (("ab").toList) [1, 1/3, 0] 2 j < candVal
            (CountingProbDist.init [("ab").toList, ("a").toList, ("a").toList,
              ("b").toList, ("b").toList, ("b").toList] 0)
            (("ab").toList) [1, 1/3, 0] 2 j') ∧
        (∀ j, j < 2 → candVal
            (CountingProbDist.init [("ab").toList, ("a").toList, ("a").toList,
              ("b").toList, ("b").toList, ("b").toList] 0)
            (("ab").toList) [1, 1/3, 0] 2 j = candVal
            (CountingProbDist.init [("ab").toList, ("a").toList, ("a").toList,
              ("b").toList, ("b").toList, ("b").toList] 0)
            (("ab").toList) [1, 1/3, 0] 2 j' →
          (sliceText (("ab").toList) j' 2).length ≤
            (sliceText (("ab").toList) j 2).length)) :=
  claim_C4
    (CountingProbDist.init [("ab").toList, ("a").toList, ("a").toList,
      ("b").toList, ("b").toList, ("b").toList] 0)
    (("ab").toList) 2 ([1, 1/3, 0], [[], ['a'], ['b']])
    (by omega) (by decide) (by decide) (by decide)
    (by
      intro j
      rcases j with _ | _ | _ | j <;> norm_num)
    (by norm_num)
    (by decide)

/-!  ### Claim C6: amended claim -/

theorem sampleFromTable_cumTable {α : Type} [DecidableEq α] :
    ∀ (l : List (α × ℕ)) (acc target : ℕ),
      acc < target → target ≤ acc + CountingProbDist.sumCounts l →
      ∃ o, CountingProbDist.sampleFromTable (CountingProbDist.cumTable l acc) target
          = some o ∧ o ∈ l.map Prod.fst := by
  intro l
  induction l with
  | nil =>
    intro acc target h1 h2
    exfalso
    simp [CountingProbDist.sumCounts] at h2
    omega
  | cons p rest ih =>
    intro acc target h1 h2
    simp only [CountingProbDist.cumTable, CountingProbDist.sampleFromTable]
    by_cases hc : target ≤ acc + p.2
    · rw [if_pos hc]
      exact ⟨p.1, rfl, by simp⟩
    · rw [if_neg hc]
      have hs : CountingProbDist.sumCounts (p :: rest) =
          p.2 + CountingProbDist.sumCounts rest := by
        simp [CountingProbDist.sumCounts]
      rw [hs] at h2
      obtain ⟨o, ho1, ho2⟩ := ih (acc + p.2) target (by omega) (by omega)
      exact ⟨o, ho1, by simp [ho2]⟩

/-- A distribution whose last mutation was an `add` (so `needs_recompute`
holds) and whose counts are not all zero always samples some stored
observation, whatever the random draw. -/
theorem sample_some {α : Type} [DecidableEq α] (m : CountingProbDist α)
    (hrec : m.needs_recompute = true)
    (hsum : CountingProbDist.sumCounts m.dictionary ≠ 0) (r : ℕ) :
    ∃ o, CountingProbDist.sample m r = some o ∧
      o ∈ m.dictionary.map Prod.fst := by
  unfold CountingProbDist.sample
  have h1 : CountingProbDist.recomputeIfNeeded m = CountingProbDist.recompute m := by
    unfold CountingProbDist.recomputeIfNeeded
    rw [hrec]
    simp
  rw [h1]
  have hn : (CountingProbDist.recompute m).n_obs =
      CountingProbDist.sumCounts m.dictionary := rfl
  have htab : (CountingProbDist.recompute m).table =
      CountingProbDist.cumTable m.dictionary 0 := rfl
  rw [hn, htab, if_neg hsum]
  have hmod : r % CountingProbDist.sumCounts m.dictionary <
      CountingProbDist.sumCounts m.dictionary :=
    Nat.mod_lt r (Nat.pos_of_ne_zero hsum)
  exact sampleFromTable_cumTable m.dictionary 0
    (1 + r % CountingProbDist.sumCounts m.dictionary) (by omega) (by omega)

theorem samplesLoop_step_append (m : NgramTextModel) (rs : ℕ → ℕ)
    (nwords f k : ℕ) (out ctx : List String) (w : String)
    (hlt : out.length < nwords)
    (hs : (NgramTextModel.condAt m ctx).sample (rs k) = some w) (hw : w ≠ "") :
    NgramTextModel.samplesLoop m rs nwords (f + 1) k out ctx =
      NgramTextModel.samplesLoop m rs nwords f (k + 1) (out ++ [w])
        (ctx.drop 1 ++ [w]) := by
  simp only [NgramTextModel.samplesLoop]
  rw [if_neg (by omega), hs]
  simp only []
  rw [if_neg hw]

theorem samplesLoop_step_reset_empty (m : NgramTextModel) (rs : ℕ → ℕ)
    (nwords f k : ℕ) (out ctx : List String)
    (hlt : out.length < nwords)
    (hs : (NgramTextModel.condAt m ctx).sample (rs k) = some ("")) :
    NgramTextModel.samplesLoop m rs nwords (f + 1) k out ctx =
      NgramTextModel.samplesLoop m rs nwords f (k + 1) out
        (List.replicate (m.n - 1) ("")) := by
  simp only [NgramTextModel.samplesLoop]
  rw [if_neg (by omega), hs]
  simp

theorem samplesLoop_step_reset_none (m : NgramTextModel) (rs : ℕ → ℕ)
    (nwords f k : ℕ) (out ctx : List String)
    (hlt : out.length < nwords)
    (hs : (NgramTextModel.condAt m ctx).sample (rs k) = none) :
    NgramTextModel.samplesLoop m rs nwords (f + 1) k out ctx =
      NgramTextModel.samplesLoop m rs nwords f (k + 1) out
        (List.replicate (m.n - 1) ("")) := by
  simp only [NgramTextModel.samplesLoop]
  rw [if_neg (by omega), hs]

/-- Progress of the `samples` while loop: when the all-sentinel conditional
distribution is an add-dirty distribution with a nonzero count total and no
empty-string token, the loop reaches exactly `nwords` tokens from any state —
each iteration either appends a token or resets the context to the sentinel,
from which the next sample is guaranteed to append. -/
theorem samplesLoop_terminates (m : NgramTextModel) (rs : ℕ → ℕ) (nwords : ℕ)
    (hrec : (NgramTextModel.condAt m
      (List.replicate (m.n - 1) (""))).needs_recompute = true)
    (hsum : CountingProbDist.sumCounts (NgramTextModel.condAt m
      (List.replicate (m.n - 1) (""))).dictionary ≠ 0)
    (htok : ∀ o ∈ (NgramTextModel.condAt m
      (List.replicate (m.n - 1) (""))).dictionary.map Prod.fst, o ≠ "") :
    ∀ d (out ctx : List String) (k : ℕ), out.length ≤ nwords →
      nwords - out.length = d →
      ∃ f out', NgramTextModel.samplesLoop m rs nwords f k out ctx = some out' ∧
        out'.length = nwords := by
  intro d
  induction d with
  | zero =>
    intro out ctx k h1 h2
    have he : out.length = nwords := by omega
    refine ⟨0, out, ?_, he⟩
    simp [NgramTextModel.samplesLoop, he]
  | succ d ih =>
    intro out ctx k h1 h2
    have hlt : out.length < nwords := by omega
    cases hsamp : (NgramTextModel.condAt m ctx).sample (rs k) with
    | some w =>
      by_cases hw : w = ""
      · subst hw
        obtain ⟨w0, hw0s, hw0m⟩ := sample_some _ hrec hsum (rs (k + 1))
        have hw0 : w0 ≠ "" := htok w0 hw0m
        obtain ⟨f0, out', hloop, hlen⟩ :=
          ih (out ++ [w0])
            ((List.replicate (m.n - 1) ("")).drop 1 ++ [w0]) (k + 2)
            (by rw [List.length_append, List.length_singleton]; omega)
            (by rw [List.length_append, List.length_singleton]; omega)
        refine ⟨f0 + 1 + 1, out', ?_, hlen⟩
        rw [samplesLoop_step_reset_empty m rs nwords (f0 + 1) k out ctx hlt hsamp]
        rw [samplesLoop_step_append m rs nwords f0 (k + 1) out
          (List.replicate (m.n - 1) ("")) w0 hlt hw0s hw0]
        exact hloop
      · obtain ⟨f0, out', hloop, hlen⟩ :=
          ih (out ++ [w]) (ctx.drop 1 ++ [w]) (k + 1)
            (by rw [List.length_append, List.length_singleton]; omega)
            (by rw [List.length_append, List.length_singleton]; omega)
        refine ⟨f0 + 1, out', ?_, hlen⟩
        rw [samplesLoop_step_append m rs nwords f0 k out ctx w hlt hsamp hw]
        exact hloop
    | none =>
      obtain ⟨w0, hw0s, hw0m⟩ := sample_some _ hrec hsum (rs (k + 1))
      have hw0 : w0 ≠ "" := htok w0 hw0m
      obtain ⟨f0, out', hloop, hlen⟩ :=
        ih (out ++ [w0])
          ((List.replicate (m.n - 1) ("")).drop 1 ++ [w0]) (k + 2)
          (by rw [List.length_append, List.length_singleton]; omega)
          (by rw [List.length_append, List.length_singleton]; omega)
      refine ⟨f0 + 1 + 1, out', ?_, hlen⟩
      rw [samplesLoop_step_reset_none m rs nwords (f0 + 1) k out ctx hlt hsamp]
      rw [samplesLoop_step_append m rs nwords f0 (k + 1) out
        (List.replicate (m.n - 1) ("")) w0 hlt hw0s hw0]
      exact hloop

/-- C6 (corrected): `samples` terminates with exactly `total_words` tokens
joined by spaces — restarting silently from the all-sentinel context whenever
a conditional distribution is empty or sampling yields no token — provided the
all-sentinel conditional distribution itself is nonempty (an add-dirty
distribution with a nonzero count total) and stores no empty-string token.  On
a model whose all-sentinel conditional distribution is empty (for example a
freshly constructed one) the loop never terminates, so the claim's original
"for every NgramTextModel" fails. -/
theorem claim_C6 (m : NgramTextModel) (rs : ℕ → ℕ) (nwords : ℕ)
    (hrec : (NgramTextModel.condAt m
      (List.replicate (m.n - 1) (""))).needs_recompute = true)
    (hsum : CountingProbDist.sumCounts (NgramTextModel.condAt m
      (List.replicate (m.n - 1) (""))).dictionary ≠ 0)
    (htok : ∀ o ∈ (NgramTextModel.condAt m
      (List.replicate (m.n - 1) (""))).dictionary.map Prod.fst, o ≠ "") :
    ∃ out, NgramTextModel.samplesProduces m rs nwords out ∧
      out.length = nwords ∧
      ∃ fuel, NgramTextModel.samplesFuel m rs nwords fuel =
        some (String.intercalate (" ") out) := by
  obtain ⟨f, out', hloop, hlen⟩ :=
    samplesLoop_terminates m rs nwords hrec hsum htok (nwords - 0) []
      (List.replicate (m.n - 1) ("")) 0 (by simp) (by simp)
  refine ⟨out', ⟨f, hloop⟩, hlen, f, ?_⟩
  unfold NgramTextModel.samplesFuel
  rw [hloop]
  rfl

/-- Witness for C6: the bigram model on ["a","b","a"] has a nonempty
all-sentinel conditional distribution with no empty token, and sampling with
any random stream produces exactly 2 tokens. -/
theorem claim_C6_witness :
    ((NgramTextModel.condAt (NgramTextModel.make 2 [("a"), ("b"), ("a")])
      (List.replicate (2 - 1) (""))).needs_recompute = true) ∧
    (CountingProbDist.sumCounts (NgramTextModel.condAt
      (NgramTextModel.make 2 [("a"), ("b"), ("a")])
      (List.replicate (2 - 1) (""))).dictionary ≠ 0) ∧
    (∃ out, NgramTextModel.samplesProduces
        (NgramTextModel.make 2 [("a"), ("b"), ("a")]) (fun _ => 0) 2 out ∧
      out.length = 2 ∧
      ∃ fuel, NgramTextModel.samplesFuel
          (NgramTextModel.make 2 [("a"), ("b"), ("a")]) (fun _ => 0) 2 fuel =
        some (String.intercalate (" ") out)) :=
  ⟨by decide, by decide,
    claim_C6 (NgramTextModel.make 2 [("a"), ("b"), ("a")]) (fun _ => 0) 2
      (by decide) (by decide) (by decide)⟩
